import Mathlib

/-!
Verification of the git-commit-manager change-detection / diff-chunking /
caching / watch-loop core against its specification.

Python strings are modelled as `List Char` (`Str`); Python dicts holding
chunks are modelled as structures; the fallible generation backend is
modelled by explicit outcome values.  All definitions are translated from
`src/src/serviceImpl/git_analyzer.py`, `src/src/serviceImpl/commit_analyzer.py`,
`src/src/serviceImpl/llm_providers.py` and `src/src/utils/watcher.py`.
-/

namespace GCM

/-- Python strings, modelled as lists of characters. -/
abbrev Str := List Char

/-- Length contribution of one line inside `'\n'.join`: `len(line) + 1`. -/
def lineSize (l : Str) : Nat := l.length + 1

/-- Sum of `len(line) + 1` over a list of lines, as the source computes
`sum(len(line) + 1 for line in current_chunk_lines)`. -/
def sizeSum (ls : List Str) : Nat := (ls.map lineSize).sum

/-- Python `'\n'.join(lines)`. -/
def joinNl : List Str → Str
  | [] => []
  | [l] => l
  | l :: ls => l ++ '\n' :: joinNl ls

/-- Python `text.split('\n')`. -/
def splitNl : Str → List Str
  | [] => [[]]
  | c :: rest =>
    if c = '\n' then [] :: splitNl rest
    else
      match splitNl rest with
      | l :: ls => (c :: l) :: ls
      | [] => [[c]]

/-- Boolean test that `pat` occurs at the start of `s`. -/
def startsWithStr : Str → Str → Bool
  | [], _ => true
  | _ :: _, [] => false
  | a :: pas, b :: bs => a = b && startsWithStr pas bs

/-- Python `pat in s`: substring containment. -/
def containsSub (pat : Str) : Str → Bool
  | [] => startsWithStr pat []
  | s@(_ :: rest) => startsWithStr pat s || containsSub pat rest

/-- Python `str.lower()` on the ASCII range. -/
def lowerStr (s : Str) : Str := s.map Char.toLower

theorem sizeSum_nil : sizeSum [] = 0 := rfl

theorem sizeSum_append (a b : List Str) : sizeSum (a ++ b) = sizeSum a + sizeSum b := by
  unfold sizeSum
  rw [List.map_append, List.sum_append]

theorem sizeSum_cons (l : Str) (ls : List Str) :
    sizeSum (l :: ls) = lineSize l + sizeSum ls := by
  unfold sizeSum
  rw [List.map_cons, List.sum_cons]

theorem length_joinNl (ls : List Str) : (joinNl ls).length + 1 = sizeSum ls + (if ls = [] then 1 else 0) := by
  induction ls with
  | nil => rfl
  | cons l rest ih =>
    cases rest with
    | nil => simp [joinNl, sizeSum_cons, sizeSum_nil, lineSize]
    | cons m ms =>
      have h : joinNl (l :: m :: ms) = l ++ '\n' :: joinNl (m :: ms) := rfl
      have ih' : (joinNl (m :: ms)).length + 1 = sizeSum (m :: ms) := by
        rw [ih, if_neg (List.cons_ne_nil _ _)]
        omega
      rw [h, if_neg (List.cons_ne_nil _ _)]
      have hs : sizeSum (l :: m :: ms) = lineSize l + sizeSum (m :: ms) := sizeSum_cons _ _
      simp only [List.length_append, List.length_cons, hs, lineSize]
      omega

/-- For a nonempty line list, `len('\n'.join(ls)) = sizeSum ls - 1`. -/
theorem length_joinNl_of_ne_nil {ls : List Str} (h : ls ≠ []) :
    (joinNl ls).length = sizeSum ls - 1 := by
  have := length_joinNl ls
  rw [if_neg h] at this
  omega

/-- A chunk as produced by `GitAnalyzer` (`{'type': ..., 'path': ..., 'diff': ...}`). -/
structure RawChunk where
  ctype : Str
  path : Str
  diff : Str
deriving DecidableEq

/-- The `function_patterns` list of `GitAnalyzer._split_by_logical_units`. -/
def function_patterns : List Str :=
  ["def ".data, "class ".data, "function ".data, "func ".data, "const ".data,
   "let ".data, "var ".data, "public ".data, "private ".data, "protected ".data,
   "static ".data]

/-- Loop of `GitAnalyzer._split_by_logical_units`: walks the content lines
carrying `current_chunk_lines` (`cur`) and `current_size` (`cs`).  A new
logical unit may flush before appending; after appending, a chunk is force
flushed whenever `current_size > max_chunk_size` (with the overflowing line
already inside it). -/
def split_by_logical_units_go (header_lines : List Str) (change_type path : Str)
    (max_chunk_size : Nat) : List Str → List Str → Nat → List RawChunk
  | [], cur, _cs =>
    if header_lines.length < cur.length then [⟨change_type, path, joinNl cur⟩] else []
  | line :: rest, cur, cs =>
    let is_new_unit := function_patterns.any fun pat => containsSub pat line
    let ls := lineSize line
    let emitPre : Bool :=
      is_new_unit && decide ((joinNl header_lines).length + 100 < cs)
        && decide (max_chunk_size < cs + ls)
    let pre : List RawChunk := if emitPre then [⟨change_type, path, joinNl cur⟩] else []
    let cur1 := if emitPre then header_lines else cur
    let cs1 := if emitPre then sizeSum header_lines else cs
    let cur2 := cur1 ++ [line]
    let cs2 := cs1 + ls
    if max_chunk_size < cs2 then
      pre ++ ⟨change_type, path, joinNl cur2⟩ ::
        split_by_logical_units_go header_lines change_type path max_chunk_size rest
          header_lines (sizeSum header_lines)
    else
      pre ++ split_by_logical_units_go header_lines change_type path max_chunk_size rest cur2 cs2

/-- `GitAnalyzer._split_by_logical_units`. -/
def split_by_logical_units (lines header_lines : List Str) (change_type path : Str)
    (max_chunk_size : Nat) : List RawChunk :=
  split_by_logical_units_go header_lines change_type path max_chunk_size lines
    header_lines (sizeSum header_lines)

/-- Loop of `GitAnalyzer._split_by_size`: flushes the accumulated chunk
before appending a line whenever it would overflow and the chunk already
holds more than the repeated header. -/
def split_by_size_go (header_lines : List Str) (change_type path : Str)
    (max_chunk_size : Nat) : List Str → List Str → Nat → List RawChunk
  | [], cur, _cs =>
    if header_lines.length < cur.length then [⟨change_type, path, joinNl cur⟩] else []
  | line :: rest, cur, cs =>
    let ls := lineSize line
    if max_chunk_size < cs + ls ∧ header_lines.length < cur.length then
      ⟨change_type, path, joinNl cur⟩ ::
        split_by_size_go header_lines change_type path max_chunk_size rest
          (header_lines ++ [line]) (sizeSum header_lines + ls)
    else
      split_by_size_go header_lines change_type path max_chunk_size rest (cur ++ [line]) (cs + ls)

/-- `GitAnalyzer._split_by_size`. -/
def split_by_size (header_lines content_lines : List Str) (change_type path : Str)
    (max_chunk_size : Nat) : List RawChunk :=
  split_by_size_go header_lines change_type path max_chunk_size content_lines
    header_lines (sizeSum header_lines)

/-- Python `line.startswith(('---', '+++', '@@'))`, the header test of
`GitAnalyzer._split_diff_into_chunks`. -/
def isHeaderLine (l : Str) : Bool :=
  startsWithStr "---".data l || startsWithStr "+++".data l || startsWithStr "@@".data l

/-- `GitAnalyzer._split_diff_into_chunks`: a short diff is emitted verbatim;
an oversized diff has its header lines separated and is split by logical
units, falling back to size-based splitting when that yields nothing. -/
def split_diff_into_chunks (change_type path : Str) (diff_text : Str)
    (max_chunk_size : Nat) : List RawChunk :=
  if diff_text = [] then []
  else if diff_text.length ≤ max_chunk_size then [⟨change_type, path, diff_text⟩]
  else
    let lines := splitNl diff_text
    let header_lines := lines.filter isHeaderLine
    let content_lines := lines.filter fun l => !isHeaderLine l
    let chunks_by_function :=
      split_by_logical_units content_lines header_lines change_type path max_chunk_size
    if chunks_by_function ≠ [] then chunks_by_function
    else split_by_size header_lines content_lines change_type path max_chunk_size

/-- The `sensitive_patterns` list of `CommitAnalyzer._extract_important_diff`. -/
def sensitive_patterns : List Str :=
  ["password".data, "passwd".data, "pwd".data, "api_key".data, "apikey".data,
   "token".data, "secret".data, "key".data, "auth".data, "credential".data,
   "private".data, "session".data, "jwt".data, "bearer".data,
   "access_token".data, "refresh_token".data, "client_secret".data, "client_id".data]

/-- Python `any(sensitive in line.lower() for sensitive in sensitive_patterns)`. -/
def isSensitiveLine (line : Str) : Bool :=
  sensitive_patterns.any fun pat => containsSub pat (lowerStr line)

/-- The replacement line `"... (민감한 정보가 포함된 라인 제외됨)"`; only the
fact that it does not start with `+` or `-` matters downstream. -/
def redactionLine : Str := "... (redacted sensitive line)".data

/-- The truncation marker `"... (너무 많은 변경사항으로 일부 생략)"`. -/
def truncationMarker : Str := "... (truncated, too many changes)".data

/-- Python `line.startswith(('+', '-'))`. -/
def startsPlusMinus (l : Str) : Bool :=
  startsWithStr "+".data l || startsWithStr "-".data l

/-- Python `line.startswith(('+++', '---'))`. -/
def startsPlusMinusHdr (l : Str) : Bool :=
  startsWithStr "+++".data l || startsWithStr "---".data l

/-- The per-line redaction of `CommitAnalyzer._extract_important_diff`:
`line = "... (redacted)" if any(sensitive in line.lower() ...) else line`. -/
def redactLine (line : Str) : Str :=
  if isSensitiveLine line then redactionLine else line

/-- First loop of `CommitAnalyzer._extract_important_diff`: redact each line,
keep added/removed lines while they fit in `max_size`, stop after 100 kept
lines.  Returns the kept lines and the accumulated size. -/
def extract_important_loop (max_size : Nat) :
    List Str → List Str → Nat → List Str × Nat
  | [], important_lines, current_size => (important_lines, current_size)
  | line :: rest, important_lines, current_size =>
    if startsPlusMinus (redactLine line) && !startsPlusMinusHdr (redactLine line) then
      if max_size < current_size + (redactLine line).length then
        (important_lines, current_size)
      else
        if 100 < (important_lines ++ [redactLine line]).length then
          (important_lines ++ [redactLine line] ++ [truncationMarker],
           current_size + (redactLine line).length + 1)
        else
          extract_important_loop max_size rest (important_lines ++ [redactLine line])
            (current_size + (redactLine line).length + 1)
    else extract_important_loop max_size rest important_lines current_size

/-- Line list built by `CommitAnalyzer._extract_important_diff` before the
final `'\n'.join`: the kept added/removed lines plus up to
`min(10, remaining_size // 50)` context lines taken from the original
(unredacted) line list. -/
def extract_important_lines (diff : Str) (max_size : Nat) : List Str :=
  if diff = [] ∨ max_size = 0 then []
  else
    if 0 < max_size - (extract_important_loop max_size (splitNl diff) [] 0).2 then
      (extract_important_loop max_size (splitNl diff) [] 0).1 ++
        ((splitNl diff).filter fun l => !startsPlusMinus l).take
          (min 10 ((max_size - (extract_important_loop max_size (splitNl diff) [] 0).2) / 50))
    else (extract_important_loop max_size (splitNl diff) [] 0).1

/-- `CommitAnalyzer._extract_important_diff`. -/
def extract_important_diff (diff : Str) (max_size : Nat) : Str :=
  joinNl (extract_important_lines diff max_size)

/-- Index of the first `'>'` in a string, used to model where the regex
`<[^>]+>` of `CommitAnalyzer._clean_llm_output` can close a match. -/
def findGt : Str → Option Nat
  | [] => none
  | c :: rest => if c = '>' then some 0 else (findGt rest).map (· + 1)

/-- Fuelled scan implementing `re.sub(r'<[^>]+>', '', text)`: at a `'<'`
whose next `'>'` comes after at least one non-`'>'` character, the whole
match is dropped and scanning resumes after it; otherwise the character is
kept.  Fuel at least the length of the string makes the scan total. -/
def remove_tags_go : Nat → Str → Str
  | 0, s => s
  | _ + 1, [] => []
  | fuel + 1, c :: rest =>
    if c = '<' then
      match findGt rest with
      | some 0 => c :: remove_tags_go fuel rest
      | some (i + 1) => remove_tags_go fuel (rest.drop (i + 2))
      | none => c :: remove_tags_go fuel rest
    else c :: remove_tags_go fuel rest

/-- The regex substitution of `CommitAnalyzer._clean_llm_output`. -/
def remove_tags (s : Str) : Str := remove_tags_go s.length s

/-- The whitespace set of Python `str.strip()` (ASCII). -/
def isPySpace (c : Char) : Bool :=
  c = ' ' || c = '\t' || c = '\n' || c = '\r' || c = '\x0b' || c = '\x0c'

/-- Python `str.strip()`. -/
def pyStrip (s : Str) : Str :=
  ((s.dropWhile isPySpace).reverse.dropWhile isPySpace).reverse

/-- `CommitAnalyzer._clean_llm_output` on string input: remove all
`<[^>]+>` matches, then strip surrounding whitespace. -/
def clean_llm_output (s : Str) : Str := pyStrip (remove_tags s)

/-- Cache key: the namespace prefix together with the canonicalised payload.
The source derives the key as `prefix + "_" + sha256(json.dumps(chunks,
sort_keys=True))`; equal payloads give equal keys, so the key is modelled by
the pair itself (content-addressed). -/
abbrev CacheKey := Str × List RawChunk

/-- One cache file: `{timestamp, value}` stored under its key. -/
structure CacheEntry where
  key : CacheKey
  timestamp : Nat
  value : Str
deriving DecidableEq

/-- The on-disk cache directory of `CacheManager`, newest entry first. -/
structure CacheSt where
  entries : List CacheEntry
deriving DecidableEq

/-- Lookup of the cache file for a key (the most recent write wins, as the
file named by the key is overwritten). -/
def cacheLookup (st : CacheSt) (key : CacheKey) : Option CacheEntry :=
  st.entries.find? fun e => e.key = key

/-- `CacheManager.get`: absent when disabled, missing, or expired
(`time.time() - timestamp > ttl`); an expired entry is deleted on read. -/
def cache_get (enabled : Bool) (ttl now : Nat) (st : CacheSt) (key : CacheKey) :
    Option Str × CacheSt :=
  if !enabled then (none, st)
  else
    match cacheLookup st key with
    | none => (none, st)
    | some e =>
      if ttl < now - e.timestamp then
        (none, ⟨st.entries.filter fun e' => e'.key ≠ key⟩)
      else (some e.value, st)

/-- `CacheManager.set`: a no-op when disabled, otherwise writes the entry
file for the key. -/
def cache_set (enabled : Bool) (now : Nat) (st : CacheSt) (key : CacheKey) (value : Str) :
    CacheSt :=
  if !enabled then st else ⟨⟨key, now, value⟩ :: st.entries⟩

/-- `CommitAnalyzer.generate_commit_message` on an explicit chunk list:
returns the produced message, the cache state after the call, and how many
times the generation backend was invoked (`self.llm.generate`).  `rawOut` is
the backend's raw output for this call.  The Python truthiness test
`if cached_result:` treats an empty cached string as a miss. -/
def generate_commit_message (enabled : Bool) (ttl now : Nat) (st : CacheSt)
    (chunks : List RawChunk) (rawOut : Str) : Str × CacheSt × Nat :=
  if chunks = [] then ([], st, 0)
  else
    match (cache_get enabled ttl now st ("commit".data, chunks)).1 with
    | some v =>
      if v ≠ [] then (v, (cache_get enabled ttl now st ("commit".data, chunks)).2, 0)
      else
        (clean_llm_output rawOut,
         cache_set enabled now (cache_get enabled ttl now st ("commit".data, chunks)).2
           ("commit".data, chunks) (clean_llm_output rawOut), 1)
    | none =>
      (clean_llm_output rawOut,
       cache_set enabled now (cache_get enabled ttl now st ("commit".data, chunks)).2
         ("commit".data, chunks) (clean_llm_output rawOut), 1)

/-- One GitPython diff item as consumed by `GitAnalyzer.get_all_changes`.
Python `None` paths are modelled by the empty string, matching the falsy
behaviour of `d.a_path or d.b_path`. -/
structure DiffEntry where
  a_path : Str := []
  b_path : Str := []
  new_file : Bool := false
  deleted_file : Bool := false
  renamed : Bool := false
  rename_from : Str := []
  rename_to : Str := []
  change_type : Str := []
deriving DecidableEq

/-- The repository view a scan observes: staged and unstaged diff items,
untracked files, the on-disk size of existing regular files, and the
configured filters. -/
structure GitState where
  staged : List DiffEntry
  unstaged : List DiffEntry
  untracked_files : List Str
  diskSize : Str → Option Nat
  ignore_patterns : List Str
  max_file_size : Nat

/-- Python `d.a_path or d.b_path`. -/
def pathOr (d : DiffEntry) : Str := if d.a_path ≠ [] then d.a_path else d.b_path

/-- `GitAnalyzer.should_ignore_file`: ignore-pattern substring match, or the
file exists and its size exceeds `max_file_size`. -/
def should_ignore_file (g : GitState) (file_path : Str) : Bool :=
  g.ignore_patterns.any (fun pat => containsSub pat file_path)
    || match g.diskSize file_path with
       | some sz => decide (g.max_file_size < sz)
       | none => false

/-- The five category sets accumulated by `GitAnalyzer.get_all_changes`. -/
structure Changes where
  added : List Str := []
  modified : List Str := []
  deleted : List Str := []
  untracked : List Str := []
  renamed : List (Str × Str) := []
deriving DecidableEq

/-- Python `set.add`: insert without duplication. -/
def insertSet {α : Type} [DecidableEq α] (x : α) (l : List α) : List α :=
  if x ∈ l then l else l ++ [x]

/-- Body of the staged-changes loop of `GitAnalyzer.get_all_changes`. -/
def staged_step (g : GitState) (acc : Changes) (d : DiffEntry) : Changes :=
  if should_ignore_file g (pathOr d) then acc
  else if d.new_file then { acc with added := insertSet d.a_path acc.added }
  else if d.deleted_file then { acc with deleted := insertSet d.a_path acc.deleted }
  else if d.renamed then
    { acc with renamed := insertSet (d.rename_from, d.rename_to) acc.renamed }
  else { acc with modified := insertSet d.a_path acc.modified }

/-- Body of the unstaged-changes loop: deletions merge into `deleted`; any
other change goes to `modified` unless the path is already in `added`
(a file added and then modified stays `added`). -/
def unstaged_step (g : GitState) (acc : Changes) (d : DiffEntry) : Changes :=
  if should_ignore_file g (pathOr d) then acc
  else if d.change_type = "D".data then
    if d.a_path ∈ acc.deleted then acc
    else { acc with deleted := insertSet d.a_path acc.deleted }
  else if d.a_path ∈ acc.added then acc
  else { acc with modified := insertSet d.a_path acc.modified }

/-- Body of the untracked-files loop. -/
def untracked_step (g : GitState) (acc : Changes) (f : Str) : Changes :=
  if should_ignore_file g f then acc
  else { acc with untracked := insertSet f acc.untracked }

/-- Lexicographic byte order on strings, as Python `sorted` compares them. -/
def strLeB : Str → Str → Bool
  | [], _ => true
  | _ :: _, [] => false
  | a :: pas, b :: bs => if a = b then strLeB pas bs else Nat.ble a.toNat b.toNat

/-- Order on rename pairs (Python tuple comparison). -/
def pairLeB (x y : Str × Str) : Bool :=
  if x.1 = y.1 then strLeB x.2 y.2 else strLeB x.1 y.1

/-- Insertion sort used to model Python `sorted(list(v))`. -/
def insertSorted {α : Type} (le : α → α → Bool) (x : α) : List α → List α
  | [] => [x]
  | y :: ys => if le x y then x :: y :: ys else y :: insertSorted le x ys

/-- Sorting by repeated insertion. -/
def sortBy {α : Type} (le : α → α → Bool) (l : List α) : List α :=
  l.foldr (insertSorted le) []

/-- The accumulated category sets of `GitAnalyzer.get_all_changes` before
the final sort: staged loop, then unstaged loop, then untracked files. -/
def scan_acc (g : GitState) : Changes :=
  g.untracked_files.foldl (untracked_step g)
    (g.unstaged.foldl (unstaged_step g)
      (g.staged.foldl (staged_step g) {}))

/-- `GitAnalyzer.get_all_changes`: staged loop, then unstaged loop, then
untracked files, with each category finally sorted. -/
def get_all_changes (g : GitState) : Changes :=
  { added := sortBy strLeB (scan_acc g).added
    modified := sortBy strLeB (scan_acc g).modified
    deleted := sortBy strLeB (scan_acc g).deleted
    untracked := sortBy strLeB (scan_acc g).untracked
    renamed := sortBy pairLeB (scan_acc g).renamed }

theorem mem_insertSorted {α : Type} (le : α → α → Bool) (x a : α) :
    ∀ l : List α, a ∈ insertSorted le x l ↔ a = x ∨ a ∈ l := by
  intro l
  induction l with
  | nil => simp [insertSorted]
  | cons y ys ih =>
    by_cases h : le x y = true
    · simp [insertSorted, h]
    · simp only [insertSorted, if_neg h, List.mem_cons, ih]
      tauto

theorem mem_sortBy {α : Type} (le : α → α → Bool) (a : α) :
    ∀ l : List α, a ∈ sortBy le l ↔ a ∈ l := by
  intro l
  induction l with
  | nil => simp [sortBy]
  | cons y ys ih =>
    simp only [sortBy, List.foldr_cons, List.mem_cons]
    rw [mem_insertSorted]
    rw [sortBy] at ih
    rw [ih]

theorem mem_insertSet {α : Type} [DecidableEq α] (x a : α) (l : List α) :
    a ∈ insertSet x l ↔ a = x ∨ a ∈ l := by
  by_cases h : x ∈ l
  · simp only [insertSet, if_pos h]
    constructor
    · exact Or.inr
    · rintro (rfl | hm)
      · exact h
      · exact hm
  · simp only [insertSet, if_neg h, List.mem_append, List.mem_singleton]
    tauto

/-- One `{'path': ..., 'size': ..., 'mtime': ...}` record built by
`GitChangeHandler._get_changes_hash`. -/
structure FileStatEntry where
  path : Str
  size : Nat
  mtime : Nat
deriving DecidableEq

/-- Stat lookup for a path: `some (size, mtime)` when the file exists, the
`{'size': 0, 'mtime': 0}` fallback otherwise. -/
def statEntry (stat : Str → Option (Nat × Nat)) (p : Str) : FileStatEntry :=
  match stat p with
  | some (sz, mt) => ⟨p, sz, mt⟩
  | none => ⟨p, 0, 0⟩

/-- The `enhanced_changes` value of `GitChangeHandler._get_changes_hash`:
the change set with per-file `(path, size, mtime)` records for the
`modified`, `added` and `untracked` categories.  The source fingerprints
`sha256(str(sorted(enhanced_changes.items())))`; since that serialisation is
canonical in this value, the fingerprint is modelled by the value itself
(distinct values give distinct digests up to SHA-256 collisions). -/
structure EnhancedChanges where
  added : List FileStatEntry
  modified : List FileStatEntry
  untracked : List FileStatEntry
  deleted : List Str
  renamed : List (Str × Str)
deriving DecidableEq

/-- `GitChangeHandler._get_changes_hash`, applied to the change set produced
by `get_all_changes` and the filesystem stat view. -/
def get_changes_hash (changes : Changes) (stat : Str → Option (Nat × Nat)) :
    EnhancedChanges :=
  { added := changes.added.map (statEntry stat)
    modified := changes.modified.map (statEntry stat)
    untracked := changes.untracked.map (statEntry stat)
    deleted := changes.deleted
    renamed := changes.renamed }

/-- Events hitting `GitWatcher.on_changes_detected`: a trigger of the
callback, or the completion of the running analysis pass (its `finally`). -/
inductive WatchEv
  | trigger
  | finish
deriving DecidableEq

/-- Observable outcome of one event at the watcher. -/
inductive WatchAct
  | started
  | dropped
  | finished
  | idleNoop
deriving DecidableEq

/-- The `_is_analyzing` test-and-set of `GitWatcher.on_changes_detected`
(lines 219-223): under `_analysis_lock` a trigger is dropped when a pass is
already running, otherwise it starts one; `finish` is the `finally` block
clearing the flag. -/
def watchStep (is_analyzing : Bool) : WatchEv → Bool × WatchAct
  | .trigger => if is_analyzing then (true, .dropped) else (true, .started)
  | .finish => if is_analyzing then (false, .finished) else (false, .idleNoop)

/-- Run of the watcher flag over a sequence of events, recording actions. -/
def watchRun (is_analyzing : Bool) : List WatchEv → Bool × List WatchAct
  | [] => (is_analyzing, [])
  | e :: es =>
    ((watchRun (watchStep is_analyzing e).1 es).1,
      (watchStep is_analyzing e).2 :: (watchRun (watchStep is_analyzing e).1 es).2)

/-- Number of passes started in an action log. -/
def countStarted (acts : List WatchAct) : Nat :=
  (acts.filter fun a => a = WatchAct.started).length

/-- Number of passes finished in an action log. -/
def countFinished (acts : List WatchAct) : Nat :=
  (acts.filter fun a => a = WatchAct.finished).length

/-- Abstract outcome environment of one body of
`GitWatcher.on_changes_detected`: the fingerprint computed at line 232, and
whether each fallible stage of the `try` block raised. -/
structure AnalysisEnv where
  current_hash : Str
  scanOk : Bool
  changesEmpty : Bool
  chunksEmpty : Bool
  genOk : Bool
  autoReview : Bool
  reviewOk : Bool
deriving DecidableEq

/-- Watcher session state relevant to fingerprint recording. -/
structure WatcherSt where
  last_processed_hash : Option Str
  is_analyzing : Bool
deriving DecidableEq

/-- Whether the whole `try` body of one pass runs without an exception. -/
def passOk (env : AnalysisEnv) : Bool :=
  env.scanOk && env.genOk && (!env.autoReview || env.reviewOk)

/-- `GitWatcher.on_changes_detected`, as a function of the session state and
of the pass environment: early returns leave `last_processed_hash` alone;
any exception is caught at line 346 after skipping the assignment at line
339; only a pass that reaches the end records the new fingerprint. -/
def on_changes_detected (st : WatcherSt) (env : AnalysisEnv) : WatcherSt :=
  if st.is_analyzing then st
  else if some env.current_hash = st.last_processed_hash then st
  else if !env.scanOk then st
  else if env.changesEmpty then st
  else if env.chunksEmpty then st
  else if !env.genOk then st
  else if env.autoReview && !env.reviewOk then st
  else { st with last_processed_hash := some env.current_hash }

/-- Outcome of one `_generate_impl` attempt inside `LLMProvider.generate`. -/
inductive AttemptRes
  | ok (s : Str)
  | retryable
  | timeoutRaised
  | providerRaised
  | unexpectedRaised
deriving DecidableEq

/-- Errors surfaced by `LLMProvider.generate`. -/
inductive GenErr
  | timeoutMessage
  | provider
  | wrappedUnexpected
  | lastRetryable
  | maxRetriesExceeded
deriving DecidableEq

/-- Whether an attempt outcome is the retryable error class. -/
def isRetryableRes : AttemptRes → Bool
  | .retryable => true
  | _ => false

/-- The retry loop of `LLMProvider.generate`, run from a given attempt index
with the remaining number of attempts as fuel: returns the result, the
number of attempts performed, and the `time.sleep` durations
(`retry_delay * (attempt + 1)`, slept only when another attempt remains). -/
def generate_from (max_retries retry_delay : Nat) (impl : Nat → AttemptRes) :
    Nat → Nat → Bool → Except GenErr Str × Nat × List Nat
  | _, 0, sawRetryable =>
    (.error (if sawRetryable then .lastRetryable else .maxRetriesExceeded), 0, [])
  | attempt, fuel + 1, _ =>
    match impl attempt with
    | .ok s => (.ok s, 1, [])
    | .retryable =>
      ((generate_from max_retries retry_delay impl (attempt + 1) fuel true).1,
       (generate_from max_retries retry_delay impl (attempt + 1) fuel true).2.1 + 1,
       (if attempt < max_retries - 1 then [retry_delay * (attempt + 1)] else []) ++
         (generate_from max_retries retry_delay impl (attempt + 1) fuel true).2.2)
    | .timeoutRaised => (.error .timeoutMessage, 1, [])
    | .providerRaised => (.error .provider, 1, [])
    | .unexpectedRaised => (.error .wrappedUnexpected, 1, [])

/-- `LLMProvider.generate` without the outer timeout decorator. -/
def generate (max_retries retry_delay : Nat) (impl : Nat → AttemptRes) :
    Except GenErr Str × Nat × List Nat :=
  generate_from max_retries retry_delay impl 0 max_retries false

/-- The `with_timeout` decorator wrapping `LLMProvider.generate`: a call
whose wall-clock duration exceeds the limit is turned into a timeout error
instead of a hang. -/
def with_timeout (timeout_seconds duration : Nat) (outcome : Except GenErr Str) :
    Except GenErr Str :=
  if timeout_seconds < duration then .error .timeoutMessage else outcome

theorem countStarted_nil : countStarted [] = 0 := rfl

theorem countFinished_nil : countFinished [] = 0 := rfl

theorem countStarted_cons (a : WatchAct) (acts : List WatchAct) :
    countStarted (a :: acts) = (if a = WatchAct.started then 1 else 0) + countStarted acts := by
  by_cases h : a = WatchAct.started <;>
    simp [countStarted, List.filter_cons, h] <;> omega

theorem countFinished_cons (a : WatchAct) (acts : List WatchAct) :
    countFinished (a :: acts) = (if a = WatchAct.finished then 1 else 0) + countFinished acts := by
  by_cases h : a = WatchAct.finished <;>
    simp [countFinished, List.filter_cons, h] <;> omega

theorem watchRun_balance : ∀ (evs : List WatchEv) (b : Bool),
    countStarted (watchRun b evs).2 + (if b then 1 else 0) =
      countFinished (watchRun b evs).2 + (if (watchRun b evs).1 then 1 else 0) := by
  intro evs
  induction evs with
  | nil => intro b; simp [watchRun, countStarted_nil, countFinished_nil]
  | cons e es ih =>
    intro b
    cases e with
    | trigger =>
      cases b with
      | true =>
        have h := ih true
        simp [watchRun, watchStep, countStarted_cons, countFinished_cons] at h ⊢ <;> omega
      | false =>
        have h := ih true
        simp [watchRun, watchStep, countStarted_cons, countFinished_cons] at h ⊢ <;> omega
    | finish =>
      cases b with
      | true =>
        have h := ih false
        simp [watchRun, watchStep, countStarted_cons, countFinished_cons] at h ⊢ <;> omega
      | false =>
        have h := ih false
        simp [watchRun, watchStep, countStarted_cons, countFinished_cons] at h ⊢ <;> omega

/-- C3: analysis passes are single-flight.  In every event sequence starting
idle, the number of started passes never exceeds the number of finished
passes by more than one (at most one analysis runs at any time); a trigger
arriving while a pass is running is dropped without starting or queueing
anything; and in the concrete overlapping scenario
trigger-trigger-finish exactly one pass executes and the second trigger is
dropped. -/
theorem c3_single_flight :
    (∀ evs : List WatchEv,
        countFinished (watchRun false evs).2 ≤ countStarted (watchRun false evs).2 ∧
        countStarted (watchRun false evs).2 ≤ countFinished (watchRun false evs).2 + 1) ∧
    watchStep true WatchEv.trigger = (true, WatchAct.dropped) ∧
    (watchRun false [WatchEv.trigger, WatchEv.trigger, WatchEv.finish]).2 =
      [WatchAct.started, WatchAct.dropped, WatchAct.finished] := by
  refine ⟨fun evs => ?_, rfl, by decide⟩
  have h := watchRun_balance evs false
  cases hb : (watchRun false evs).1 <;> rw [hb] at h <;> simp at h <;> omega

/-- C5: the watch loop records the current fingerprint as last processed
only when the whole pass succeeds.  For every prior state and every pass
environment, either `last_processed_hash` is left unchanged, or the pass ran
to completion without any exception and the new hash is recorded. -/
theorem c5_fingerprint_only_on_success :
    ∀ (st : WatcherSt) (env : AnalysisEnv),
      (on_changes_detected st env).last_processed_hash = st.last_processed_hash ∨
      (passOk env = true ∧
        (on_changes_detected st env).last_processed_hash = some env.current_hash) := by
  intro st env
  unfold on_changes_detected
  split_ifs with h1 h2 h3 h4 h5 h6 h7
  · exact Or.inl rfl
  · exact Or.inl rfl
  · exact Or.inl rfl
  · exact Or.inl rfl
  · exact Or.inl rfl
  · exact Or.inl rfl
  · exact Or.inl rfl
  · refine Or.inr ⟨?_, rfl⟩
    unfold passOk
    revert h3 h6 h7
    cases env.scanOk <;> cases env.genOk <;> cases env.autoReview <;> cases env.reviewOk <;> simp

/-- C1 counterexample: splitting the 20-character diff
`"aaaaaa\nbbbbbb\ncccccc"` with `max_chunk_size = 10` produces two chunks
for the same path, and the first (non-terminal) chunk has content length 13,
exceeding the limit — the oversize chunk is not a terminal remainder. -/
theorem c1_counterexample :
    (split_diff_into_chunks "modified".data "f.py".data
        "aaaaaa\nbbbbbb\ncccccc".data 10).map (fun c => c.diff) =
      ["aaaaaa\nbbbbbb".data, "cccccc".data] ∧
    10 < ("aaaaaa\nbbbbbb".data : Str).length := by
  exact ⟨by decide, by decide⟩

/-- C2 counterexample: the diff line `+api_key = "sk-test123"` is placed
verbatim into the chunk produced by `_split_diff_into_chunks`, so the chunk
content contains the raw sensitive substring `sk-test123`; no redaction is
applied before chunk creation. -/
theorem c2_counterexample :
    (split_diff_into_chunks "modified".data "config.py".data
        "+api_key = \"sk-test123\"".data 2000).map (fun c => c.diff) =
      ["+api_key = \"sk-test123\"".data] ∧
    containsSub "sk-test123".data "+api_key = \"sk-test123\"".data = true := by
  exact ⟨by decide, by decide⟩

/-- A concrete chunk used in the cache counterexample and witnesses. -/
def c4_chunk : RawChunk := ⟨"modified".data, "a.py".data, "+x = 1".data⟩

/-- C4 counterexample: when the backend output is `"<think></think>"` the
cleaned result is the empty string; the cached empty string is falsy under
`if cached_result:`, so a second call with the same chunk list invokes the
backend again — two invocations in total, not exactly one. -/
theorem c4_counterexample :
    (generate_commit_message true 100 0 ⟨[]⟩ [c4_chunk] "<think></think>".data).2.2 = 1 ∧
    (generate_commit_message true 100 1
        (generate_commit_message true 100 0 ⟨[]⟩ [c4_chunk] "<think></think>".data).2.1
        [c4_chunk] "<think></think>".data).2.2 = 1 := by
  exact ⟨by decide, by decide⟩

/-- The repository view in which `a.py` is staged as added and further
modified in the working tree. -/
def c6_state : GitState :=
  { staged := [{ a_path := "a.py".data, b_path := "a.py".data, new_file := true }]
    unstaged := [{ a_path := "a.py".data, b_path := "a.py".data, change_type := "M".data }]
    untracked_files := []
    diskSize := fun _ => some 10
    ignore_patterns := []
    max_file_size := 1000 }

/-- The repository view in which `b.py` is staged as modified and deleted
from the working tree. -/
def c6_state2 : GitState :=
  { staged := [{ a_path := "b.py".data, b_path := "b.py".data }]
    unstaged := [{ a_path := "b.py".data, b_path := "b.py".data, change_type := "D".data }]
    untracked_files := []
    diskSize := fun _ => none
    ignore_patterns := []
    max_file_size := 1000 }

/-- C6 counterexample: a path staged as added and then modified in the
working tree is reported under `added`, not under `modified` — the opposite
of the claimed collapse to `Modified`; and the blanket at-most-one-category
invariant also fails: a path staged as modified and then deleted from the
working tree appears under both `modified` and `deleted`. -/
theorem c6_counterexample :
    ("a.py".data ∈ (get_all_changes c6_state).added ∧
     "a.py".data ∉ (get_all_changes c6_state).modified) ∧
    ("b.py".data ∈ (get_all_changes c6_state2).modified ∧
     "b.py".data ∈ (get_all_changes c6_state2).deleted) := by
  exact ⟨⟨by decide, by decide⟩, ⟨by decide, by decide⟩⟩

/-- C7 counterexample: with `max_retries = 4`, `retry_delay = 1` and every
attempt failing with a retryable error, the waits between attempts are
`[1, 2, 3]` — a linear progression, not an exponential one (no constant
ratio exists, and 1·3 ≠ 2·2). -/
theorem c7_counterexample :
    (generate 4 1 (fun _ => AttemptRes.retryable)).2.2 = [1, 2, 3] ∧
    ¬ (∃ f : ℚ, (2 : ℚ) = 1 * f ∧ (3 : ℚ) = 2 * f) ∧
    1 * 3 ≠ 2 * 2 := by
  refine ⟨by decide, ?_, by decide⟩
  rintro ⟨f, h1, h2⟩
  rw [one_mul] at h1
  rw [← h1] at h2
  norm_num at h2

/-- The repository view in which an oversized on-disk file appears as the
destination of a staged rename. -/
def c8_state : GitState :=
  { staged := [{ a_path := "old.py".data, b_path := "big.bin".data, renamed := true,
                 rename_from := "old.py".data, rename_to := "big.bin".data }]
    unstaged := []
    untracked_files := []
    diskSize := fun p => if p = "big.bin".data then some 6 else none
    ignore_patterns := []
    max_file_size := 5 }

/-- C8 counterexample: `big.bin` is on disk with size 6, above the ceiling
of 5, yet the rename pair `(old.py, big.bin)` appears in the `renamed`
category of the scan — only `a_path` (the rename source, absent on disk) is
size-checked, so the oversized path is not entirely absent. -/
theorem c8_counterexample :
    ("old.py".data, "big.bin".data) ∈ (get_all_changes c8_state).renamed ∧
    c8_state.diskSize "big.bin".data = some 6 ∧
    c8_state.max_file_size < 6 := by
  exact ⟨by decide, by decide, by decide⟩

theorem generate_from_ok {max_retries retry_delay : Nat} {impl : Nat → AttemptRes}
    {attempt n : Nat} {saw : Bool} {s : Str} (h : impl attempt = .ok s) :
    generate_from max_retries retry_delay impl attempt (n + 1) saw = (.ok s, 1, []) := by
  unfold generate_from
  rw [h]

theorem generate_from_retryable {max_retries retry_delay : Nat} {impl : Nat → AttemptRes}
    {attempt n : Nat} {saw : Bool} (h : impl attempt = .retryable) :
    generate_from max_retries retry_delay impl attempt (n + 1) saw =
      ((generate_from max_retries retry_delay impl (attempt + 1) n true).1,
       (generate_from max_retries retry_delay impl (attempt + 1) n true).2.1 + 1,
       (if attempt < max_retries - 1 then [retry_delay * (attempt + 1)] else []) ++
         (generate_from max_retries retry_delay impl (attempt + 1) n true).2.2) := by
  conv_lhs => unfold generate_from
  rw [h]

theorem generate_from_fatal {max_retries retry_delay : Nat} {impl : Nat → AttemptRes}
    {attempt n : Nat} {saw : Bool} {e : GenErr}
    (h : (impl attempt = .timeoutRaised ∧ e = .timeoutMessage) ∨
         (impl attempt = .providerRaised ∧ e = .provider) ∨
         (impl attempt = .unexpectedRaised ∧ e = .wrappedUnexpected)) :
    generate_from max_retries retry_delay impl attempt (n + 1) saw = (.error e, 1, []) := by
  unfold generate_from
  rcases h with ⟨h1, h2⟩ | ⟨h1, h2⟩ | ⟨h1, h2⟩ <;> rw [h1, h2]

theorem generate_from_sleeps_nil (max_retries retry_delay : Nat) (impl : Nat → AttemptRes) :
    ∀ (fuel attempt : Nat) (saw : Bool), max_retries - 1 ≤ attempt →
      (generate_from max_retries retry_delay impl attempt fuel saw).2.2 = [] := by
  intro fuel
  induction fuel with
  | zero => intro attempt saw _; rfl
  | succ n ih =>
    intro attempt saw h
    cases himpl : impl attempt with
    | ok s => rw [generate_from_ok himpl]
    | retryable =>
      rw [generate_from_retryable himpl]
      have hlt : ¬ attempt < max_retries - 1 := by omega
      simp only [hlt, if_false, ite_false, List.nil_append]
      exact ih (attempt + 1) true (by omega)
    | timeoutRaised => rw [generate_from_fatal (Or.inl ⟨himpl, rfl⟩)]
    | providerRaised => rw [generate_from_fatal (Or.inr (Or.inl ⟨himpl, rfl⟩))]
    | unexpectedRaised => rw [generate_from_fatal (Or.inr (Or.inr ⟨himpl, rfl⟩))]

theorem generate_from_spec (max_retries retry_delay : Nat) (impl : Nat → AttemptRes) :
    ∀ (fuel attempt : Nat) (saw : Bool),
      (generate_from max_retries retry_delay impl attempt fuel saw).2.1 ≤ fuel ∧
      (∀ j, j + 1 < (generate_from max_retries retry_delay impl attempt fuel saw).2.1 →
        isRetryableRes (impl (attempt + j)) = true) ∧
      (generate_from max_retries retry_delay impl attempt fuel saw).2.2 =
        (List.range (generate_from max_retries retry_delay impl attempt fuel saw).2.2.length).map
          (fun i => retry_delay * (attempt + i + 1)) := by
  intro fuel
  induction fuel with
  | zero =>
    intro attempt saw
    refine ⟨Nat.le_refl 0, fun j hj => absurd hj (by simp [generate_from]), by simp [generate_from]⟩
  | succ n ih =>
    intro attempt saw
    cases himpl : impl attempt with
    | ok s =>
      rw [generate_from_ok himpl]
      exact ⟨by simp, fun j hj => absurd hj (show ¬ (j + 1 < 1) by omega), by simp⟩
    | retryable =>
      obtain ⟨ihn, ihr, ihs⟩ := ih (attempt + 1) true
      rw [generate_from_retryable himpl]
      refine ⟨by simpa using Nat.add_le_add_right ihn 1, ?_, ?_⟩
      · intro j hj
        simp only at hj
        cases j with
        | zero => simpa [isRetryableRes] using congrArg isRetryableRes himpl
        | succ k =>
          have hk : k + 1 < (generate_from max_retries retry_delay impl (attempt + 1) n true).2.1 := by
            omega
          have := ihr k hk
          have harith : attempt + 1 + k = attempt + (k + 1) := by omega
          rw [harith] at this
          exact this
      · by_cases hlt : attempt < max_retries - 1
        · simp only [hlt, if_true, ite_true, List.cons_append, List.nil_append,
            List.length_cons, List.range_succ_eq_map, List.map_cons, List.map_map]
          refine congrArg₂ List.cons (by simp) ?_
          conv_lhs => rw [ihs]
          apply List.map_congr_left
          intro i _
          simp only [Function.comp, Nat.succ_eq_add_one]
          ring
        · simp only [hlt, if_false, ite_false, List.nil_append]
          have hnil := generate_from_sleeps_nil max_retries retry_delay impl n (attempt + 1) true (by omega)
          rw [hnil]
          rfl
    | timeoutRaised =>
      rw [generate_from_fatal (Or.inl ⟨himpl, rfl⟩)]
      exact ⟨by simp, fun j hj => absurd hj (show ¬ (j + 1 < 1) by omega), by simp⟩
    | providerRaised =>
      rw [generate_from_fatal (Or.inr (Or.inl ⟨himpl, rfl⟩))]
      exact ⟨by simp, fun j hj => absurd hj (show ¬ (j + 1 < 1) by omega), by simp⟩
    | unexpectedRaised =>
      rw [generate_from_fatal (Or.inr (Or.inr ⟨himpl, rfl⟩))]
      exact ⟨by simp, fun j hj => absurd hj (show ¬ (j + 1 < 1) by omega), by simp⟩

/-- C7 (amended): `LLMProvider.generate` performs at most `max_retries`
attempts; every attempt except possibly the last ended in a retryable error
(so non-retryable errors stop the loop immediately and only retryable ones
are retried); the waits between attempts grow linearly, the i-th wait being
`retry_delay * (i + 1)` (not exponentially); and the surrounding
`with_timeout` wrapper converts any call lasting beyond the limit into a
timeout failure. -/
theorem c7_amended :
    ∀ (max_retries retry_delay : Nat) (impl : Nat → AttemptRes),
      (generate max_retries retry_delay impl).2.1 ≤ max_retries ∧
      (((List.range ((generate max_retries retry_delay impl).2.1 - 1)).all
          fun j => isRetryableRes (impl j)) = true) ∧
      (generate max_retries retry_delay impl).2.2 =
        (List.range (generate max_retries retry_delay impl).2.2.length).map
          (fun i => retry_delay * (i + 1)) ∧
      (∀ (t extra : Nat) (outcome : Except GenErr Str),
        with_timeout t (t + 1 + extra) outcome = .error .timeoutMessage) := by
  intro max_retries retry_delay impl
  unfold generate
  obtain ⟨hn, hr, hs⟩ := generate_from_spec max_retries retry_delay impl max_retries 0 false
  refine ⟨hn, ?_, ?_, ?_⟩
  · rw [List.all_eq_true]
    intro j hj
    rw [List.mem_range] at hj
    have := hr j (by omega)
    simpa using this
  · conv_lhs => rw [hs]
    apply List.map_congr_left
    intro i _
    simp
  · intro t extra outcome
    unfold with_timeout
    rw [if_pos (by omega)]

/-- The redaction-safety predicate: a line either is not an added/removed
line, or contains no sensitive pattern. -/
def redactedSafe (l : Str) : Bool := !startsPlusMinus l || !isSensitiveLine l

theorem redactedSafe_redactLine (line : Str) : redactedSafe (redactLine line) = true := by
  unfold redactLine
  by_cases hs : isSensitiveLine line = true
  · rw [if_pos hs]
    decide
  · rw [if_neg hs]
    unfold redactedSafe
    rw [Bool.not_eq_true] at hs
    rw [hs]
    simp

theorem extract_loop_all (max_size : Nat) :
    ∀ (lines important_lines : List Str) (current_size : Nat),
      important_lines.all redactedSafe = true →
      (extract_important_loop max_size lines important_lines current_size).1.all redactedSafe
        = true := by
  intro lines
  induction lines with
  | nil => intro acc cs h; exact h
  | cons line rest ih =>
    intro acc cs h
    have hsafe : redactedSafe (redactLine line) = true := redactedSafe_redactLine line
    have happ : (acc ++ [redactLine line]).all redactedSafe = true := by
      rw [List.all_append, h, Bool.true_and]
      simpa using hsafe
    unfold extract_important_loop
    split_ifs with h1 h2 h3
    · exact h
    · rw [List.all_append, happ, Bool.true_and]
      decide
    · exact ih (acc ++ [redactLine line]) (cs + (redactLine line).length + 1) happ
    · exact ih acc cs h

/-- C2 (amended): redaction happens only inside
`CommitAnalyzer._extract_important_diff`, the review-prompt path for
oversized chunk diffs — not before chunk creation.  There, every
added/removed line (`+`/`-`, excluding `+++`/`---` headers) containing a
configured sensitive term, case-insensitively, is dropped (the replacement
placeholder does not survive the `+`/`-` filter), so every added/removed
line of the extracted diff is free of sensitive terms; chunk contents and
cache keys are built from the unredacted diff text. -/
theorem c2_amended :
    ∀ (diff : Str) (max_size : Nat),
      (extract_important_lines diff max_size).all redactedSafe = true := by
  intro diff max_size
  unfold extract_important_lines
  by_cases hnil : diff = [] ∨ max_size = 0
  · simp only [hnil, if_true, ite_true]
    rfl
  · simp only [hnil, if_false, ite_false]
    have hloop := extract_loop_all max_size (splitNl diff) [] 0 rfl
    by_cases hrem :
        0 < max_size - (extract_important_loop max_size (splitNl diff) [] 0).2
    · simp only [hrem, if_true, ite_true]
      rw [List.all_append, hloop, Bool.true_and, List.all_eq_true]
      intro l hl
      have hmem := List.mem_of_mem_take hl
      rw [List.mem_filter] at hmem
      unfold redactedSafe
      rw [hmem.2]
      simp
    · simp only [hrem, if_false, ite_false]
      exact hloop

theorem split_by_size_go_bound (header_lines : List Str) (change_type path : Str)
    (max_chunk_size : Nat) :
    ∀ (rest cur extra : List Str) (cs : Nat),
      cur = header_lines ++ extra →
      cs = sizeSum cur →
      sizeSum cur ≤ max_chunk_size →
      (∀ l ∈ rest, sizeSum header_lines + lineSize l ≤ max_chunk_size) →
      ∀ c ∈ split_by_size_go header_lines change_type path max_chunk_size rest cur cs,
        c.diff.length < max_chunk_size := by
  intro rest
  induction rest with
  | nil =>
    intro cur extra cs hext hcs hle _hrest c hc
    unfold split_by_size_go at hc
    by_cases hlen : header_lines.length < cur.length
    · rw [if_pos hlen] at hc
      rw [List.mem_singleton] at hc
      subst hc
      have hne : cur ≠ [] := by
        intro hnil
        rw [hnil] at hlen
        simp at hlen
      have hj := length_joinNl_of_ne_nil hne
      have hpos : 1 ≤ sizeSum cur := by
        cases cur with
        | nil => exact absurd rfl hne
        | cons x xs =>
          rw [sizeSum_cons]
          unfold lineSize
          omega
      simp only [hj]
      omega
    · rw [if_neg hlen] at hc
      exact absurd hc (List.not_mem_nil c)
  | cons line rest ih =>
    intro cur extra cs hext hcs hle hrest c hc
    have hline : sizeSum header_lines + lineSize line ≤ max_chunk_size :=
      hrest line (List.mem_cons_self line rest)
    have hrest' : ∀ l ∈ rest, sizeSum header_lines + lineSize l ≤ max_chunk_size :=
      fun l hl => hrest l (List.mem_cons_of_mem line hl)
    unfold split_by_size_go at hc
    by_cases hcond : max_chunk_size < cs + lineSize line ∧ header_lines.length < cur.length
    · rw [if_pos hcond] at hc
      rw [List.mem_cons] at hc
      cases hc with
      | inl heq =>
        subst heq
        have hne : cur ≠ [] := by
          intro hnil
          rw [hnil] at hcond
          simp at hcond
        have hj := length_joinNl_of_ne_nil hne
        have hpos : 1 ≤ sizeSum cur := by
          cases cur with
          | nil => exact absurd rfl hne
          | cons x xs =>
            rw [sizeSum_cons]
            unfold lineSize
            omega
        simp only [hj]
        omega
      | inr hmem =>
        refine ih (header_lines ++ [line]) [line] (sizeSum header_lines + lineSize line)
          rfl ?_ ?_ hrest' c hmem
        · rw [sizeSum_append, sizeSum_cons, sizeSum_nil]
          omega
        · rw [sizeSum_append, sizeSum_cons, sizeSum_nil]
          omega
    · rw [if_neg hcond] at hc
      have hcs' : cs + lineSize line = sizeSum (cur ++ [line]) := by
        rw [sizeSum_append, sizeSum_cons, sizeSum_nil, hcs]
        omega
      have hle' : sizeSum (cur ++ [line]) ≤ max_chunk_size := by
        rw [← hcs']
        rcases Decidable.not_and_iff_or_not.mp hcond with hov | hcur
        · omega
        · have hlen : cur.length = header_lines.length + extra.length := by
            rw [hext, List.length_append]
          have hx : extra = [] := List.eq_nil_of_length_eq_zero (by omega)
          have hcur' : cur = header_lines := by
            rw [hext, hx, List.append_nil]
          rw [hcs, hcur']
          omega
      exact ih (cur ++ [line]) (extra ++ [line]) (cs + lineSize line)
        (by rw [hext, List.append_assoc]) hcs' hle' hrest' c hc

/-- C1 (amended): the hard `max_chunk_size` bound holds for the size-based
fallback splitter `_split_by_size` whenever every content line fits next to
the repeated header (`sizeSum header + len(line) + 1 ≤ max_chunk_size`):
every chunk it emits, including the terminal one, has content length
strictly below `max_chunk_size`.  Without that proviso, and in the
logical-unit splitter `_split_by_logical_units` generally, an emitted chunk
contains the line that overflowed it and may exceed `max_chunk_size` even
when it is not a terminal remainder. -/
theorem c1_amended :
    ∀ (header_lines content_lines : List Str) (change_type path : Str) (max_chunk_size : Nat),
      (∀ l ∈ content_lines, sizeSum header_lines + lineSize l ≤ max_chunk_size) →
      ∀ c ∈ split_by_size header_lines content_lines change_type path max_chunk_size,
        c.diff.length < max_chunk_size := by
  intro header_lines content_lines change_type path max_chunk_size hfit c hc
  cases content_lines with
  | nil =>
    unfold split_by_size split_by_size_go at hc
    rw [if_neg (by omega)] at hc
    exact absurd hc (List.not_mem_nil c)
  | cons l0 ls =>
    have hhdr : sizeSum header_lines ≤ max_chunk_size := by
      have := hfit l0 (List.mem_cons_self l0 ls)
      omega
    exact split_by_size_go_bound header_lines change_type path max_chunk_size
      (l0 :: ls) header_lines [] (sizeSum header_lines)
      (by rw [List.append_nil]) rfl hhdr hfit c hc

/-- C1 witness: with header `["@@"]`, three fitting content lines and
`max_chunk_size = 12`, the size-based splitter emits the chunk
`"@@\n+aaaa"` whose content length is below the bound. -/
theorem c1_amended_witness :
    ((["+aaaa".data, "+bbb".data, "+cc".data] : List Str).all
        fun l => decide (sizeSum ["@@".data] + lineSize l ≤ 12)) = true ∧
    (⟨"modified".data, "f.py".data, "@@\n+aaaa".data⟩ : RawChunk) ∈
      split_by_size ["@@".data] ["+aaaa".data, "+bbb".data, "+cc".data]
        "modified".data "f.py".data 12 ∧
    (⟨"modified".data, "f.py".data, "@@\n+aaaa".data⟩ : RawChunk).diff.length < 12 := by
  refine ⟨by decide, by decide, ?_⟩
  exact c1_amended ["@@".data] ["+aaaa".data, "+bbb".data, "+cc".data]
    "modified".data "f.py".data 12 (by decide) _ (by decide)

/-- C4 (amended): with caching enabled, a fresh key, a nonempty chunk list
and a nonempty cleaned backend output, two successive
`generate_commit_message` calls within the TTL invoke the backend exactly
once: the first call generates, cleans and stores the result under the
content-addressed key, and the second call returns the same value from the
cache without invoking the backend.  (When the cleaned result is empty the
cached value is falsy and the backend is invoked again — see the
counterexample.) -/
theorem c4_amended :
    ∀ (st0 : CacheSt) (chunks : List RawChunk) (rawOut : Str) (ttl now1 now2 : Nat),
      chunks ≠ [] →
      clean_llm_output rawOut ≠ [] →
      cacheLookup st0 ("commit".data, chunks) = none →
      now2 - now1 ≤ ttl →
      (generate_commit_message true ttl now1 st0 chunks rawOut).2.2 = 1 ∧
      (generate_commit_message true ttl now2
          (generate_commit_message true ttl now1 st0 chunks rawOut).2.1 chunks rawOut).2.2 = 0 ∧
      (generate_commit_message true ttl now2
          (generate_commit_message true ttl now1 st0 chunks rawOut).2.1 chunks rawOut).1 =
        (generate_commit_message true ttl now1 st0 chunks rawOut).1 ∧
      (generate_commit_message true ttl now1 st0 chunks rawOut).1 = clean_llm_output rawOut := by
  intro st0 chunks rawOut ttl now1 now2 hchunks hres hlookup httl
  have hget1 : cache_get true ttl now1 st0 ("commit".data, chunks) = (none, st0) := by
    unfold cache_get
    rw [hlookup]
    rfl
  have h1 : generate_commit_message true ttl now1 st0 chunks rawOut =
      (clean_llm_output rawOut,
       ⟨⟨("commit".data, chunks), now1, clean_llm_output rawOut⟩ :: st0.entries⟩, 1) := by
    unfold generate_commit_message
    rw [if_neg hchunks, hget1]
    rfl
  have hlookup2 :
      cacheLookup ⟨⟨("commit".data, chunks), now1, clean_llm_output rawOut⟩ :: st0.entries⟩
        ("commit".data, chunks) =
      some ⟨("commit".data, chunks), now1, clean_llm_output rawOut⟩ := by
    unfold cacheLookup
    exact List.find?_cons_of_pos _ (by simp)
  have hget2 :
      cache_get true ttl now2
        ⟨⟨("commit".data, chunks), now1, clean_llm_output rawOut⟩ :: st0.entries⟩
        ("commit".data, chunks) =
      (some (clean_llm_output rawOut),
       ⟨⟨("commit".data, chunks), now1, clean_llm_output rawOut⟩ :: st0.entries⟩) := by
    have hnot : ¬ ttl < now2 - now1 := by omega
    unfold cache_get
    rw [hlookup2]
    simp [hnot]
  have h2 : generate_commit_message true ttl now2
      (generate_commit_message true ttl now1 st0 chunks rawOut).2.1 chunks rawOut =
      (clean_llm_output rawOut,
       ⟨⟨("commit".data, chunks), now1, clean_llm_output rawOut⟩ :: st0.entries⟩, 0) := by
    rw [h1]
    unfold generate_commit_message
    rw [if_neg hchunks, hget2]
    simp [hres]
  rw [h2, h1]
  exact ⟨rfl, rfl, rfl, rfl⟩

/-- C4 witness: a concrete run with backend output `"feat: x"` (nonempty
after cleaning) on a fresh cache: the backend is invoked once, the second
call is a cache hit returning the cleaned result. -/
theorem c4_amended_witness :
    (generate_commit_message true 10 0 ⟨[]⟩ [c4_chunk] "feat: x".data).2.2 = 1 ∧
    (generate_commit_message true 10 5
        (generate_commit_message true 10 0 ⟨[]⟩ [c4_chunk] "feat: x".data).2.1
        [c4_chunk] "feat: x".data).2.2 = 0 ∧
    (generate_commit_message true 10 5
        (generate_commit_message true 10 0 ⟨[]⟩ [c4_chunk] "feat: x".data).2.1
        [c4_chunk] "feat: x".data).1 =
      (generate_commit_message true 10 0 ⟨[]⟩ [c4_chunk] "feat: x".data).1 ∧
    (generate_commit_message true 10 0 ⟨[]⟩ [c4_chunk] "feat: x".data).1 =
      clean_llm_output "feat: x".data :=
  c4_amended ⟨[]⟩ [c4_chunk] "feat: x".data 10 0 5 (by decide) (by decide) rfl (by decide)

theorem get_all_changes_added (g : GitState) :
    (get_all_changes g).added = sortBy strLeB (scan_acc g).added := rfl

theorem get_all_changes_modified (g : GitState) :
    (get_all_changes g).modified = sortBy strLeB (scan_acc g).modified := rfl

theorem get_all_changes_deleted (g : GitState) :
    (get_all_changes g).deleted = sortBy strLeB (scan_acc g).deleted := rfl

theorem get_all_changes_untracked (g : GitState) :
    (get_all_changes g).untracked = sortBy strLeB (scan_acc g).untracked := rfl

/-- Generic preservation of an invariant along a left fold. -/
theorem foldl_preserve {α β : Type} (P : β → Prop) (f : β → α → β)
    (hstep : ∀ b a, P b → P (f b a)) : ∀ (l : List α) (b : β), P b → P (l.foldl f b) := by
  intro l
  induction l with
  | nil => intro b hb; exact hb
  | cons a l ih =>
    intro b hb
    rw [List.foldl_cons]
    exact ih (f b a) (hstep b a hb)

theorem staged_step_cases (g : GitState) (acc : Changes) (d : DiffEntry) :
    ((staged_step g acc d).added = acc.added ∧ (staged_step g acc d).modified = acc.modified)
    ∨ ((staged_step g acc d).added = insertSet d.a_path acc.added ∧
        (staged_step g acc d).modified = acc.modified)
    ∨ ((staged_step g acc d).added = acc.added ∧
        (staged_step g acc d).modified = insertSet d.a_path acc.modified) := by
  unfold staged_step
  split_ifs <;> simp

theorem unstaged_step_cases (g : GitState) (acc : Changes) (d : DiffEntry) :
    (unstaged_step g acc d).added = acc.added ∧
    ((unstaged_step g acc d).modified = acc.modified ∨
      (d.a_path ∉ acc.added ∧
        (unstaged_step g acc d).modified = insertSet d.a_path acc.modified)) := by
  unfold unstaged_step
  split_ifs with h1 h2 h3 h4 <;> simp [*]

theorem untracked_step_am (g : GitState) (acc : Changes) (f : Str) :
    (untracked_step g acc f).added = acc.added ∧
    (untracked_step g acc f).modified = acc.modified := by
  unfold untracked_step
  split_ifs <;> simp

/-- Disjointness of the `added` and `modified` categories. -/
def DisjAM (acc : Changes) : Prop := ∀ p, p ∈ acc.added → p ∉ acc.modified

theorem staged_loop_disj (g : GitState) :
    ∀ (ds : List DiffEntry) (acc : Changes),
      DisjAM acc →
      (∀ d ∈ ds, d.a_path ∉ acc.added ∧ d.a_path ∉ acc.modified) →
      (ds.map DiffEntry.a_path).Nodup →
      DisjAM (ds.foldl (staged_step g) acc) := by
  intro ds
  induction ds with
  | nil => intro acc hd _ _; exact hd
  | cons d ds ih =>
    intro acc hd hfresh hnd
    rw [List.map_cons, List.nodup_cons] at hnd
    obtain ⟨hhead, hndtail⟩ := hnd
    have hne : ∀ d' ∈ ds, d'.a_path ≠ d.a_path := by
      intro d' hd' heq
      exact hhead (heq ▸ List.mem_map_of_mem DiffEntry.a_path hd')
    obtain ⟨hda, hdm⟩ := hfresh d (List.mem_cons_self d ds)
    rw [List.foldl_cons]
    refine ih (staged_step g acc d) ?_ ?_ hndtail
    · rcases staged_step_cases g acc d with ⟨ha, hm⟩ | ⟨ha, hm⟩ | ⟨ha, hm⟩
      · intro p hp
        rw [ha] at hp
        rw [hm]
        exact hd p hp
      · intro p hp
        rw [ha, mem_insertSet] at hp
        rw [hm]
        rcases hp with rfl | hp
        · exact hdm
        · exact hd p hp
      · intro p hp
        rw [ha] at hp
        rw [hm, mem_insertSet]
        rintro (rfl | hp')
        · exact hda hp
        · exact hd p hp hp'
    · intro d' hd'
      obtain ⟨h1, h2⟩ := hfresh d' (List.mem_cons_of_mem d hd')
      have hne' := hne d' hd'
      rcases staged_step_cases g acc d with ⟨ha, hm⟩ | ⟨ha, hm⟩ | ⟨ha, hm⟩
      · rw [ha, hm]; exact ⟨h1, h2⟩
      · rw [ha, hm, mem_insertSet]
        exact ⟨by rintro (h | h); exact hne' h; exact h1 h, h2⟩
      · rw [ha, hm, mem_insertSet]
        exact ⟨h1, by rintro (h | h); exact hne' h; exact h2 h⟩

theorem unstaged_loop_disj (g : GitState) :
    ∀ (ds : List DiffEntry) (acc : Changes),
      DisjAM acc →
      DisjAM (ds.foldl (unstaged_step g) acc) ∧
      (ds.foldl (unstaged_step g) acc).added = acc.added := by
  intro ds
  induction ds with
  | nil => intro acc hd; exact ⟨hd, rfl⟩
  | cons d ds ih =>
    intro acc hd
    obtain ⟨ha, hm⟩ := unstaged_step_cases g acc d
    have hd1 : DisjAM (unstaged_step g acc d) := by
      rcases hm with hm | ⟨hfresh, hm⟩
      · intro p hp
        rw [ha] at hp
        rw [hm]
        exact hd p hp
      · intro p hp
        rw [ha] at hp
        rw [hm, mem_insertSet]
        rintro (rfl | hp')
        · exact hfresh hp
        · exact hd p hp hp'
    rw [List.foldl_cons]
    obtain ⟨hrec, haeq⟩ := ih (unstaged_step g acc d) hd1
    exact ⟨hrec, by rw [haeq, ha]⟩

theorem untracked_loop_am (g : GitState) :
    ∀ (fs : List Str) (acc : Changes),
      (fs.foldl (untracked_step g) acc).added = acc.added ∧
      (fs.foldl (untracked_step g) acc).modified = acc.modified := by
  intro fs
  induction fs with
  | nil => intro acc; exact ⟨rfl, rfl⟩
  | cons f fs ih =>
    intro acc
    obtain ⟨ha, hm⟩ := untracked_step_am g acc f
    rw [List.foldl_cons]
    obtain ⟨ha', hm'⟩ := ih (untracked_step g acc f)
    exact ⟨by rw [ha', ha], by rw [hm', hm]⟩

/-- C6 (amended): in the change set returned by `get_all_changes` (with the
staged diff listing each path once), the `added` and `modified` categories
are disjoint; in particular a path that was staged as `Added` and then
further modified in the working tree stays only under `added` — the
unstaged loop explicitly skips paths already in `added` — and never appears
under `modified` (the claimed collapse to `Modified` is the opposite of
what the code does; see the counterexample). -/
theorem c6_amended :
    ∀ (g : GitState), (g.staged.map DiffEntry.a_path).Nodup →
      ∀ p, p ∈ (get_all_changes g).added → p ∉ (get_all_changes g).modified := by
  intro g hnd p hp hpm
  rw [get_all_changes_added, mem_sortBy] at hp
  rw [get_all_changes_modified, mem_sortBy] at hpm
  unfold scan_acc at hp hpm
  have hd0 : DisjAM ({} : Changes) := by
    intro q hq
    exact absurd hq (List.not_mem_nil q)
  have h1 := staged_loop_disj g g.staged {} hd0
    (fun d _ => ⟨List.not_mem_nil _, List.not_mem_nil _⟩) hnd
  obtain ⟨h2, _⟩ := unstaged_loop_disj g g.unstaged (g.staged.foldl (staged_step g) {}) h1
  obtain ⟨hua, hum⟩ := untracked_loop_am g g.untracked_files
    (g.unstaged.foldl (unstaged_step g) (g.staged.foldl (staged_step g) {}))
  rw [hua] at hp
  rw [hum] at hpm
  exact h2 p hp hpm

/-- C6 witness: the state in which `a.py` is staged as added and further
modified satisfies the nodup hypothesis, and the path sits in `added` while
the theorem excludes it from `modified`. -/
theorem c6_amended_witness :
    (c6_state.staged.map DiffEntry.a_path).Nodup ∧
    "a.py".data ∈ (get_all_changes c6_state).added ∧
    "a.py".data ∉ (get_all_changes c6_state).modified :=
  ⟨by decide, by decide, c6_amended c6_state (by decide) "a.py".data (by decide)⟩

/-- Whether the file at `p` exists on disk with a size above the configured
ceiling. -/
def oversizedFile (g : GitState) (p : Str) : Bool :=
  match g.diskSize p with
  | some sz => decide (g.max_file_size < sz)
  | none => false

theorem should_ignore_of_oversized {g : GitState} {p : Str}
    (h : oversizedFile g p = true) : should_ignore_file g p = true := by
  unfold should_ignore_file
  unfold oversizedFile at h
  cases hd : g.diskSize p with
  | none => rw [hd] at h; exact absurd h (by simp)
  | some sz =>
    rw [hd] at h
    rw [Bool.or_eq_true]
    exact Or.inr h

/-- The path `p` is absent from all four single-path categories. -/
def NotInCats (p : Str) (acc : Changes) : Prop :=
  p ∉ acc.added ∧ p ∉ acc.modified ∧ p ∉ acc.deleted ∧ p ∉ acc.untracked

theorem not_mem_insertSet_of {α : Type} [DecidableEq α] {p x : α} {l : List α}
    (hne : p ≠ x) (hl : p ∉ l) : p ∉ insertSet x l := by
  rw [mem_insertSet]
  rintro (rfl | h)
  · exact hne rfl
  · exact hl h

theorem staged_step_notin (g : GitState) {p : Str} (hig : should_ignore_file g p = true)
    (hne : p ≠ []) (acc : Changes) (d : DiffEntry) (h : NotInCats p acc) :
    NotInCats p (staged_step g acc d) := by
  obtain ⟨h1, h2, h3, h4⟩ := h
  unfold staged_step
  split_ifs with hg hnew hdel hren
  · exact ⟨h1, h2, h3, h4⟩
  · have hpne : p ≠ d.a_path := by
      rintro rfl
      have hpor : pathOr d = d.a_path := by
        unfold pathOr
        rw [if_pos hne]
      rw [hpor] at hg
      exact hg hig
    exact ⟨not_mem_insertSet_of hpne h1, h2, h3, h4⟩
  · have hpne : p ≠ d.a_path := by
      rintro rfl
      have hpor : pathOr d = d.a_path := by
        unfold pathOr
        rw [if_pos hne]
      rw [hpor] at hg
      exact hg hig
    exact ⟨h1, h2, not_mem_insertSet_of hpne h3, h4⟩
  · exact ⟨h1, h2, h3, h4⟩
  · have hpne : p ≠ d.a_path := by
      rintro rfl
      have hpor : pathOr d = d.a_path := by
        unfold pathOr
        rw [if_pos hne]
      rw [hpor] at hg
      exact hg hig
    exact ⟨h1, not_mem_insertSet_of hpne h2, h3, h4⟩

theorem unstaged_step_notin (g : GitState) {p : Str} (hig : should_ignore_file g p = true)
    (hne : p ≠ []) (acc : Changes) (d : DiffEntry) (h : NotInCats p acc) :
    NotInCats p (unstaged_step g acc d) := by
  obtain ⟨h1, h2, h3, h4⟩ := h
  unfold unstaged_step
  split_ifs with hg hD hmem hadd
  · exact ⟨h1, h2, h3, h4⟩
  · exact ⟨h1, h2, h3, h4⟩
  · have hpne : p ≠ d.a_path := by
      rintro rfl
      have hpor : pathOr d = d.a_path := by
        unfold pathOr
        rw [if_pos hne]
      rw [hpor] at hg
      exact hg hig
    exact ⟨h1, h2, not_mem_insertSet_of hpne h3, h4⟩
  · exact ⟨h1, h2, h3, h4⟩
  · have hpne : p ≠ d.a_path := by
      rintro rfl
      have hpor : pathOr d = d.a_path := by
        unfold pathOr
        rw [if_pos hne]
      rw [hpor] at hg
      exact hg hig
    exact ⟨h1, not_mem_insertSet_of hpne h2, h3, h4⟩

theorem untracked_step_notin (g : GitState) {p : Str} (hig : should_ignore_file g p = true)
    (acc : Changes) (f : Str) (h : NotInCats p acc) :
    NotInCats p (untracked_step g acc f) := by
  obtain ⟨h1, h2, h3, h4⟩ := h
  unfold untracked_step
  split_ifs with hg
  · exact ⟨h1, h2, h3, h4⟩
  · have hpne : p ≠ f := by
      rintro rfl
      exact hg hig
    exact ⟨h1, h2, h3, not_mem_insertSet_of hpne h4⟩

/-- C8 (amended): a nonempty path whose on-disk size exceeds the configured
ceiling is absent from every single-path category of the scan — `added`,
`modified`, `deleted` and `untracked` — because every such insertion is
guarded by `should_ignore_file` on that same path.  A rename pair is only
guarded on the diff's `a_path`, so an oversized rename destination can still
appear in the `renamed` category (see the counterexample). -/
theorem c8_amended :
    ∀ (g : GitState) (p : Str), p ≠ [] → oversizedFile g p = true →
      p ∉ (get_all_changes g).added ∧ p ∉ (get_all_changes g).modified ∧
      p ∉ (get_all_changes g).deleted ∧ p ∉ (get_all_changes g).untracked := by
  intro g p hne hov
  have hig := should_ignore_of_oversized hov
  have h0 : NotInCats p ({} : Changes) :=
    ⟨List.not_mem_nil p, List.not_mem_nil p, List.not_mem_nil p, List.not_mem_nil p⟩
  have hs := foldl_preserve (NotInCats p) (staged_step g)
    (fun acc d => staged_step_notin g hig hne acc d) g.staged {} h0
  have hu := foldl_preserve (NotInCats p) (unstaged_step g)
    (fun acc d => unstaged_step_notin g hig hne acc d) g.unstaged _ hs
  have ht := foldl_preserve (NotInCats p) (untracked_step g)
    (fun acc f => untracked_step_notin g hig acc f) g.untracked_files _ hu
  obtain ⟨t1, t2, t3, t4⟩ := ht
  refine ⟨?_, ?_, ?_, ?_⟩
  · rw [get_all_changes_added, mem_sortBy]
    exact t1
  · rw [get_all_changes_modified, mem_sortBy]
    exact t2
  · rw [get_all_changes_deleted, mem_sortBy]
    exact t3
  · rw [get_all_changes_untracked, mem_sortBy]
    exact t4

/-- C8 witness: in the rename counterexample state, the oversized
destination `big.bin` is indeed absent from the four single-path
categories even though it appears in `renamed`. -/
theorem c8_amended_witness :
    ("big.bin".data ≠ ([] : Str)) ∧ oversizedFile c8_state "big.bin".data = true ∧
    ("big.bin".data ∉ (get_all_changes c8_state).added ∧
     "big.bin".data ∉ (get_all_changes c8_state).modified ∧
     "big.bin".data ∉ (get_all_changes c8_state).deleted ∧
     "big.bin".data ∉ (get_all_changes c8_state).untracked) :=
  ⟨by decide, by decide, c8_amended c8_state "big.bin".data (by decide) (by decide)⟩

theorem map_eq_map_elem {α β : Type} {f g : α → β} :
    ∀ {l : List α}, l.map f = l.map g → ∀ a ∈ l, f a = g a := by
  intro l
  induction l with
  | nil => intro _ a ha; exact absurd ha (List.not_mem_nil a)
  | cons x xs ih =>
    intro h a ha
    rw [List.map_cons, List.map_cons, List.cons_eq_cons] at h
    rcases List.mem_cons.mp ha with rfl | ha'
    · exact h.1
    · exact ih h.2 a ha'

theorem get_changes_hash_added (changes : Changes) (stat : Str → Option (Nat × Nat)) :
    (get_changes_hash changes stat).added = changes.added.map (statEntry stat) := rfl

theorem get_changes_hash_modified (changes : Changes) (stat : Str → Option (Nat × Nat)) :
    (get_changes_hash changes stat).modified = changes.modified.map (statEntry stat) := rfl

theorem get_changes_hash_untracked (changes : Changes) (stat : Str → Option (Nat × Nat)) :
    (get_changes_hash changes stat).untracked = changes.untracked.map (statEntry stat) := rfl

/-- C9: the change fingerprint is deterministic and stat-sensitive.  First,
the `enhanced_changes` value hashed by `_get_changes_hash` depends only on
the change set and on the stat data of the listed added/modified/untracked
paths — the categories the source stats — so two scans of an identical
on-disk state (same change set, same sizes and mtimes) produce identical
fingerprints.  Second, any change to a changed file's size or modification
time (an mtime-only touch included), for a file listed in any of the
`added`, `modified` or `untracked` categories, changes the value, hence
the SHA-256 fingerprint computed from its canonical serialisation (up to
hash collisions).  `deleted` paths have no on-disk stat and `renamed`
entries are recorded as bare path pairs, so no size/mtime exists for them
in the hash inputs. -/
theorem c9_fingerprint :
    ∀ (changes : Changes) (stat1 stat2 : Str → Option (Nat × Nat)),
      ((∀ p, (p ∈ changes.added ∨ p ∈ changes.modified ∨ p ∈ changes.untracked) →
          stat1 p = stat2 p) →
        get_changes_hash changes stat1 = get_changes_hash changes stat2) ∧
      (∀ (p : Str) (sz1 m1 sz2 m2 : Nat),
        (p ∈ changes.added ∨ p ∈ changes.modified ∨ p ∈ changes.untracked) →
        stat1 p = some (sz1, m1) → stat2 p = some (sz2, m2) →
        (sz1 ≠ sz2 ∨ m1 ≠ m2) →
        get_changes_hash changes stat1 ≠ get_changes_hash changes stat2) := by
  intro changes stat1 stat2
  constructor
  · intro hstat
    unfold get_changes_hash
    have hmap : ∀ (l : List Str), (∀ p ∈ l, stat1 p = stat2 p) →
        l.map (statEntry stat1) = l.map (statEntry stat2) := by
      intro l hl
      apply List.map_congr_left
      intro p hp
      unfold statEntry
      rw [hl p hp]
    rw [hmap changes.added (fun p hp => hstat p (Or.inl hp)),
        hmap changes.modified (fun p hp => hstat p (Or.inr (Or.inl hp))),
        hmap changes.untracked (fun p hp => hstat p (Or.inr (Or.inr hp)))]
  · intro p sz1 m1 sz2 m2 hmem hs1 hs2 hdelta heq
    have hpt : statEntry stat1 p = statEntry stat2 p := by
      rcases hmem with hmem | hmem | hmem
      · have hcat := congrArg EnhancedChanges.added heq
        rw [get_changes_hash_added, get_changes_hash_added] at hcat
        exact map_eq_map_elem hcat p hmem
      · have hcat := congrArg EnhancedChanges.modified heq
        rw [get_changes_hash_modified, get_changes_hash_modified] at hcat
        exact map_eq_map_elem hcat p hmem
      · have hcat := congrArg EnhancedChanges.untracked heq
        rw [get_changes_hash_untracked, get_changes_hash_untracked] at hcat
        exact map_eq_map_elem hcat p hmem
    unfold statEntry at hpt
    rw [hs1, hs2] at hpt
    rcases hdelta with hd | hd
    · exact hd (congrArg FileStatEntry.size hpt)
    · exact hd (congrArg FileStatEntry.mtime hpt)

/-- The change set used in the fingerprint witness. -/
def c9_changes : Changes := { modified := ["a.py".data], untracked := ["new.txt".data] }

/-- C9 witness: with `a.py` modified and `new.txt` untracked, bumping only
`a.py`'s mtime from 100 to 101 (size fixed at 5) changes the fingerprint
value, and growing only `new.txt`'s size from 5 to 6 (mtime fixed) changes
it as well. -/
theorem c9_fingerprint_witness :
    "a.py".data ∈ c9_changes.modified ∧
    get_changes_hash c9_changes (fun _ => some (5, 100)) ≠
      get_changes_hash c9_changes (fun _ => some (5, 101)) ∧
    "new.txt".data ∈ c9_changes.untracked ∧
    get_changes_hash c9_changes (fun _ => some (5, 100)) ≠
      get_changes_hash c9_changes (fun _ => some (6, 100)) :=
  ⟨by decide,
   (c9_fingerprint c9_changes (fun _ => some (5, 100)) (fun _ => some (5, 101))).2
     "a.py".data 5 100 5 101 (Or.inr (Or.inl (by decide))) rfl rfl (Or.inr (by decide)),
   by decide,
   (c9_fingerprint c9_changes (fun _ => some (5, 100)) (fun _ => some (6, 100))).2
     "new.txt".data 5 100 6 100 (Or.inr (Or.inr (by decide))) rfl rfl (Or.inl (by decide))⟩

/-- Absence of any `<[^>]+>` match: no infix of the form `'<' :: m ++ ['>']`
with `m` nonempty and free of `'>'`. -/
def TagFree (s : Str) : Prop :=
  ∀ m : Str, m ≠ [] → '>' ∉ m → ¬ ('<' :: m ++ ['>']) <:+: s

theorem tagFree_nil : TagFree [] := by
  intro m hm _ hin
  rw [List.infix_nil] at hin
  exact List.cons_ne_nil '<' (m ++ ['>']) hin

theorem tagFree_of_cons {c : Char} {s : Str} (h : TagFree (c :: s)) : TagFree s :=
  fun m hm hgt hin => h m hm hgt (List.infix_cons hin)

theorem tagFree_of_infix {t s : Str} (hts : t <:+: s) (h : TagFree s) : TagFree t :=
  fun m hm hgt hin => h m hm hgt (hin.trans hts)

theorem findGt_none : ∀ {s : Str}, findGt s = none → '>' ∉ s := by
  intro s
  induction s with
  | nil => intro _; exact List.not_mem_nil '>'
  | cons c rest ih =>
    intro h hmem
    unfold findGt at h
    by_cases hc : c = '>'
    · rw [if_pos hc] at h
      exact Option.noConfusion h
    · rw [if_neg hc] at h
      rw [Option.map_eq_none'] at h
      rcases List.mem_cons.mp hmem with rfl | hmem'
      · exact hc rfl
      · exact ih h hmem'

theorem findGt_cons_zero {c : Char} {rest : Str} (h : findGt (c :: rest) = some 0) :
    c = '>' := by
  unfold findGt at h
  by_cases hc : c = '>'
  · exact hc
  · rw [if_neg hc, Option.map_eq_some'] at h
    obtain ⟨a, _, ha⟩ := h
    exact absurd ha (by omega)

theorem findGt_lt : ∀ {s : Str} {i : Nat}, findGt s = some i → i < s.length := by
  intro s
  induction s with
  | nil => intro i h; exact Option.noConfusion h
  | cons c rest ih =>
    intro i h
    unfold findGt at h
    by_cases hc : c = '>'
    · rw [if_pos hc] at h
      have h0 := Option.some.inj h
      rw [List.length_cons]
      omega
    · rw [if_neg hc, Option.map_eq_some'] at h
      obtain ⟨j, hj, rfl⟩ := h
      rw [List.length_cons]
      have := ih hj
      omega

theorem findGt_decomp : ∀ {s : Str} {i : Nat}, findGt s = some i →
    '>' ∉ s.take i ∧ s = s.take i ++ '>' :: s.drop (i + 1) := by
  intro s
  induction s with
  | nil => intro i h; exact Option.noConfusion h
  | cons c rest ih =>
    intro i h
    unfold findGt at h
    by_cases hc : c = '>'
    · rw [if_pos hc] at h
      have hi : i = 0 := by
        have := Option.some.inj h
        omega
      subst hi hc
      exact ⟨List.not_mem_nil '>', rfl⟩
    · rw [if_neg hc, Option.map_eq_some'] at h
      obtain ⟨j, hj, rfl⟩ := h
      obtain ⟨ihm, ihe⟩ := ih hj
      rw [List.take_succ_cons, List.drop_succ_cons]
      refine ⟨?_, ?_⟩
      · intro hmem
        rcases List.mem_cons.mp hmem with heq | hmem'
        · exact hc heq.symm
        · exact ihm hmem'
      · rw [List.cons_append]
        exact congrArg (c :: ·) ihe

theorem go_zero (s : Str) : remove_tags_go 0 s = s := rfl

theorem go_nil (fuel : Nat) : remove_tags_go fuel [] = [] := by
  cases fuel <;> rfl

theorem go_cons_not_lt {c : Char} (hc : ¬ c = '<') (fuel : Nat) (rest : Str) :
    remove_tags_go (fuel + 1) (c :: rest) = c :: remove_tags_go fuel rest := by
  conv_lhs => unfold remove_tags_go
  rw [if_neg hc]

theorem go_cons_lt_zero (fuel : Nat) {rest : Str} (h : findGt rest = some 0) :
    remove_tags_go (fuel + 1) ('<' :: rest) = '<' :: remove_tags_go fuel rest := by
  conv_lhs => unfold remove_tags_go
  rw [if_pos rfl, h]

theorem go_cons_lt_succ (fuel : Nat) {rest : Str} {i : Nat} (h : findGt rest = some (i + 1)) :
    remove_tags_go (fuel + 1) ('<' :: rest) = remove_tags_go fuel (rest.drop (i + 2)) := by
  conv_lhs => unfold remove_tags_go
  rw [if_pos rfl, h]

theorem go_cons_lt_none (fuel : Nat) {rest : Str} (h : findGt rest = none) :
    remove_tags_go (fuel + 1) ('<' :: rest) = '<' :: remove_tags_go fuel rest := by
  conv_lhs => unfold remove_tags_go
  rw [if_pos rfl, h]

theorem go_gt_head {fuel : Nat} (hf : 1 ≤ fuel) (rest : Str) :
    remove_tags_go fuel ('>' :: rest) = '>' :: remove_tags_go (fuel - 1) rest := by
  cases fuel with
  | zero => omega
  | succ n => exact go_cons_not_lt (by decide) n rest

theorem go_length : ∀ (fuel : Nat) (s : Str), (remove_tags_go fuel s).length ≤ s.length := by
  intro fuel
  induction fuel with
  | zero => intro s; rw [go_zero]
  | succ n ih =>
    intro s
    cases s with
    | nil => rw [go_nil]
    | cons c rest =>
      by_cases hc : c = '<'
      · subst hc
        cases hgt : findGt rest with
        | none =>
          rw [go_cons_lt_none n hgt, List.length_cons, List.length_cons]
          exact Nat.succ_le_succ (ih rest)
        | some i =>
          cases i with
          | zero =>
            rw [go_cons_lt_zero n hgt, List.length_cons, List.length_cons]
            exact Nat.succ_le_succ (ih rest)
          | succ i =>
            rw [go_cons_lt_succ n hgt, List.length_cons]
            have h1 := ih (rest.drop (i + 2))
            rw [List.length_drop] at h1
            omega
      · rw [go_cons_not_lt hc, List.length_cons, List.length_cons]
        exact Nat.succ_le_succ (ih rest)

theorem go_mem : ∀ (fuel : Nat) (s : Str) (c : Char), c ∈ remove_tags_go fuel s → c ∈ s := by
  intro fuel
  induction fuel with
  | zero => intro s c h; rw [go_zero] at h; exact h
  | succ n ih =>
    intro s c h
    cases s with
    | nil => rw [go_nil] at h; exact absurd h (List.not_mem_nil c)
    | cons c0 rest =>
      by_cases hc : c0 = '<'
      · subst hc
        cases hgt : findGt rest with
        | none =>
          rw [go_cons_lt_none n hgt] at h
          rcases List.mem_cons.mp h with rfl | h'
          · exact List.mem_cons_self _ _
          · exact List.mem_cons_of_mem _ (ih rest c h')
        | some i =>
          cases i with
          | zero =>
            rw [go_cons_lt_zero n hgt] at h
            rcases List.mem_cons.mp h with rfl | h'
            · exact List.mem_cons_self _ _
            · exact List.mem_cons_of_mem _ (ih rest c h')
          | succ i =>
            rw [go_cons_lt_succ n hgt] at h
            exact List.mem_cons_of_mem _ (List.mem_of_mem_drop (ih _ c h))
      · rw [go_cons_not_lt hc] at h
        rcases List.mem_cons.mp h with rfl | h'
        · exact List.mem_cons_self _ _
        · exact List.mem_cons_of_mem _ (ih rest c h')

theorem tagFree_go : ∀ (fuel : Nat) (s : Str), s.length ≤ fuel →
    TagFree (remove_tags_go fuel s) := by
  intro fuel
  induction fuel with
  | zero =>
    intro s hs
    have hnil : s = [] := List.eq_nil_of_length_eq_zero (Nat.le_zero.mp hs)
    rw [hnil, go_zero]
    exact tagFree_nil
  | succ n ih =>
    intro s hs
    cases s with
    | nil => rw [go_nil]; exact tagFree_nil
    | cons c rest =>
      have hrl : rest.length ≤ n := by
        rw [List.length_cons] at hs
        omega
      by_cases hc : c = '<'
      · subst hc
        cases hgt : findGt rest with
        | none =>
          rw [go_cons_lt_none n hgt]
          intro m hm hgtm hin
          rcases List.infix_cons_iff.mp hin with hpre | hinf
          · have h2 : m ++ ['>'] <+: remove_tags_go n rest :=
              (List.cons_prefix_cons.mp hpre).2
            have h3 : '>' ∈ remove_tags_go n rest := h2.subset (by simp)
            exact findGt_none hgt (go_mem n rest '>' h3)
          · exact ih rest hrl m hm hgtm hinf
        | some i =>
          cases i with
          | zero =>
            cases rest with
            | nil => exact absurd hgt (by decide)
            | cons r0 rest' =>
              have hr0 : r0 = '>' := findGt_cons_zero hgt
              subst hr0
              rw [go_cons_lt_zero n hgt]
              have hn1 : 1 ≤ n := by
                rw [List.length_cons] at hrl
                omega
              intro m hm hgtm hin
              rcases List.infix_cons_iff.mp hin with hpre | hinf
              · have h2 : m ++ ['>'] <+: remove_tags_go n ('>' :: rest') :=
                  (List.cons_prefix_cons.mp hpre).2
                rw [go_gt_head hn1 rest'] at h2
                cases m with
                | nil => exact hm rfl
                | cons m0 m' =>
                  have h3 : m0 = '>' := (List.cons_prefix_cons.mp (by simpa using h2)).1
                  exact hgtm (h3 ▸ List.mem_cons_self m0 m')
              · exact ih ('>' :: rest') hrl m hm hgtm hinf
          | succ i =>
            rw [go_cons_lt_succ n hgt]
            refine ih (rest.drop (i + 2)) ?_
            rw [List.length_drop]
            omega
      · rw [go_cons_not_lt hc]
        intro m hm hgtm hin
        rcases List.infix_cons_iff.mp hin with hpre | hinf
        · exact hc ((List.cons_prefix_cons.mp hpre).1).symm
        · exact ih rest hrl m hm hgtm hinf

theorem go_id_of_tagFree : ∀ (fuel : Nat) (s : Str), TagFree s →
    remove_tags_go fuel s = s := by
  intro fuel
  induction fuel with
  | zero => intro s _; rw [go_zero]
  | succ n ih =>
    intro s htf
    cases s with
    | nil => rw [go_nil]
    | cons c rest =>
      by_cases hc : c = '<'
      · subst hc
        cases hgt : findGt rest with
        | none =>
          rw [go_cons_lt_none n hgt]
          exact congrArg ('<' :: ·) (ih rest (tagFree_of_cons htf))
        | some i =>
          cases i with
          | zero =>
            rw [go_cons_lt_zero n hgt]
            exact congrArg ('<' :: ·) (ih rest (tagFree_of_cons htf))
          | succ i =>
            exfalso
            obtain ⟨hnot, hdec⟩ := findGt_decomp hgt
            have hlen : (rest.take (i + 1)).length = i + 1 := by
              rw [List.length_take]
              have := findGt_lt hgt
              omega
            have hne : rest.take (i + 1) ≠ [] := by
              apply List.ne_nil_of_length_pos
              omega
            refine htf (rest.take (i + 1)) hne hnot ?_
            refine List.IsPrefix.isInfix ⟨rest.drop (i + 2), ?_⟩
            simp only [List.cons_append, List.append_assoc, List.singleton_append]
            exact congrArg ('<' :: ·) hdec.symm
      · rw [go_cons_not_lt hc]
        exact congrArg (c :: ·) (ih rest (tagFree_of_cons htf))

theorem go_length_lt : ∀ (fuel : Nat) (s : Str), s.length ≤ fuel → ¬ TagFree s →
    (remove_tags_go fuel s).length < s.length := by
  intro fuel
  induction fuel with
  | zero =>
    intro s hs hnt
    have hnil : s = [] := List.eq_nil_of_length_eq_zero (Nat.le_zero.mp hs)
    rw [hnil] at hnt
    exact absurd tagFree_nil hnt
  | succ n ih =>
    intro s hs hnt
    cases s with
    | nil => exact absurd tagFree_nil hnt
    | cons c rest =>
      have hrl : rest.length ≤ n := by
        rw [List.length_cons] at hs
        omega
      unfold TagFree at hnt
      rw [Classical.not_forall] at hnt
      obtain ⟨m, hm⟩ := hnt
      rw [Classical.not_imp, Classical.not_imp, Classical.not_not] at hm
      obtain ⟨hmne, hgtm, hin⟩ := hm
      by_cases hc : c = '<'
      · subst hc
        cases hgt : findGt rest with
        | none =>
          rw [go_cons_lt_none n hgt, List.length_cons, List.length_cons]
          have hinf : ('<' :: m ++ ['>']) <:+: rest := by
            rcases List.infix_cons_iff.mp hin with hpre | hinf
            · exfalso
              have h2 : m ++ ['>'] <+: rest := (List.cons_prefix_cons.mp hpre).2
              exact findGt_none hgt (h2.subset (by simp))
            · exact hinf
          have hnt' : ¬ TagFree rest := fun htf => htf m hmne hgtm hinf
          have := ih rest hrl hnt'
          omega
        | some i =>
          cases i with
          | zero =>
            cases rest with
            | nil => exact absurd hgt (by decide)
            | cons r0 rest' =>
              have hr0 : r0 = '>' := findGt_cons_zero hgt
              subst hr0
              rw [go_cons_lt_zero n hgt, List.length_cons, List.length_cons]
              have hinf : ('<' :: m ++ ['>']) <:+: ('>' :: rest') := by
                rcases List.infix_cons_iff.mp hin with hpre | hinf
                · exfalso
                  have h2 : m ++ ['>'] <+: ('>' :: rest') :=
                    (List.cons_prefix_cons.mp hpre).2
                  cases m with
                  | nil => exact hmne rfl
                  | cons m0 m' =>
                    have h3 : m0 = '>' := (List.cons_prefix_cons.mp (by simpa using h2)).1
                    exact hgtm (h3 ▸ List.mem_cons_self m0 m')
                · exact hinf
              have hnt' : ¬ TagFree ('>' :: rest') := fun htf => htf m hmne hgtm hinf
              have := ih ('>' :: rest') hrl hnt'
              omega
          | succ i =>
            rw [go_cons_lt_succ n hgt, List.length_cons]
            have h1 := go_length n (rest.drop (i + 2))
            rw [List.length_drop] at h1
            omega
      · rw [go_cons_not_lt hc, List.length_cons, List.length_cons]
        have hinf : ('<' :: m ++ ['>']) <:+: rest := by
          rcases List.infix_cons_iff.mp hin with hpre | hinf
          · exact absurd ((List.cons_prefix_cons.mp hpre).1).symm hc
          · exact hinf
        have hnt' : ¬ TagFree rest := fun htf => htf m hmne hgtm hinf
        have := ih rest hrl hnt'
        omega

theorem pyStrip_prefix_dropWhile (s : Str) :
    pyStrip s <+: s.dropWhile isPySpace := by
  unfold pyStrip
  rw [← List.reverse_suffix, List.reverse_reverse]
  exact List.dropWhile_suffix isPySpace

theorem pyStrip_isInfixOf (s : Str) : pyStrip s <:+: s :=
  (pyStrip_prefix_dropWhile s).isInfix.trans (List.dropWhile_suffix isPySpace).isInfix

theorem pyStrip_length_le (s : Str) : (pyStrip s).length ≤ s.length :=
  (pyStrip_isInfixOf s).sublist.length_le

/-- Review result (`{'file': ..., 'type': ..., 'review': ...}`) as built by
`CommitAnalyzer._review_single_chunk` and `review_code_changes`. -/
structure ReviewEntry where
  file : Str
  rtype : Str
  review : Str
deriving DecidableEq

/-- The `reviewable_extensions` set of `CommitAnalyzer._should_review_chunk`. -/
def reviewable_extensions : List Str :=
  [".py".data, ".js".data, ".ts".data, ".java".data, ".cpp".data, ".c".data,
   ".go".data, ".rs".data, ".rb".data, ".php".data]

/-- Python `s.endswith(suf)`. -/
def endsWithStr (suf s : Str) : Bool := decide (suf <:+ s)

/-- `CommitAnalyzer._should_review_chunk`: reviewable file extension and a
reviewed change type.  The source first rejects chunks whose dict carries a
truthy `binary` flag; `RawChunk` models the text chunks `GitAnalyzer`
builds (`{'type', 'path', 'diff'}`), which carry no such flag, so that
test is vacuously false here. -/
def should_review_chunk (c : RawChunk) : Bool :=
  (reviewable_extensions.any fun ext => endsWithStr ext c.path) &&
  decide (c.ctype ∈ ["added".data, "modified".data, "untracked".data])

/-- The review text produced for one chunk on a cache miss:
`_review_single_chunk` puts `_clean_llm_output(self.llm.generate(...))`
under the `'review'` key, and `review_code_changes` cleans that value once
more before appending and caching it. -/
def review_value (backend : RawChunk → Str) (c : RawChunk) : Str :=
  clean_llm_output (clean_llm_output (backend c))

/-- One iteration of the loop body of `CommitAnalyzer.review_code_changes`
for a reviewable chunk: the cache is consulted under the key
`("review", [c])` (modelling `"review" + sha256(json.dumps(chunk,
sort_keys=True))`, content-addressed by the single chunk); a truthy cached
review is returned as is, otherwise the doubly cleaned backend output is
returned and cached.  A falsy (empty) cached review fails
`if cached_review:` and regenerates, as in `generate_commit_message`. -/
def review_step (enabled : Bool) (ttl now : Nat) (backend : RawChunk → Str)
    (c : RawChunk) (st : CacheSt) : ReviewEntry × CacheSt :=
  match (cache_get enabled ttl now st ("review".data, [c])).1 with
  | some v =>
    if v ≠ [] then
      ((⟨c.path, c.ctype, v⟩ : ReviewEntry),
       (cache_get enabled ttl now st ("review".data, [c])).2)
    else
      ((⟨c.path, c.ctype, review_value backend c⟩ : ReviewEntry),
       cache_set enabled now (cache_get enabled ttl now st ("review".data, [c])).2
         ("review".data, [c]) (review_value backend c))
  | none =>
    ((⟨c.path, c.ctype, review_value backend c⟩ : ReviewEntry),
     cache_set enabled now (cache_get enabled ttl now st ("review".data, [c])).2
       ("review".data, [c]) (review_value backend c))

/-- `CommitAnalyzer.review_code_changes` on an explicit chunk list:
`backend c` is the backend's raw output for chunk `c`'s review prompt.
Chunks failing `_should_review_chunk` are skipped; the rest are processed
in order by `review_step`, threading the cache state.  Returns the review
list and the final cache state. -/
def review_code_changes (enabled : Bool) (ttl now : Nat) (backend : RawChunk → Str) :
    List RawChunk → CacheSt → List ReviewEntry × CacheSt
  | [], st => ([], st)
  | c :: rest, st =>
    if should_review_chunk c then
      ((review_step enabled ttl now backend c st).1 ::
        (review_code_changes enabled ttl now backend rest
          (review_step enabled ttl now backend c st).2).1,
       (review_code_changes enabled ttl now backend rest
         (review_step enabled ttl now backend c st).2).2)
    else review_code_changes enabled ttl now backend rest st

theorem tagFree_clean (s : Str) : TagFree (clean_llm_output s) :=
  tagFree_of_infix (pyStrip_isInfixOf (remove_tags s))
    (tagFree_go s.length s (Nat.le_refl _))

theorem dropWhile_head_not : ∀ (l : List Char) (a : Char) (t : List Char),
    l.dropWhile isPySpace = a :: t → isPySpace a = false := by
  intro l
  induction l with
  | nil =>
    intro a t h
    exact List.noConfusion h
  | cons c cs ih =>
    intro a t h
    rw [List.dropWhile_cons] at h
    by_cases hc : isPySpace c = true
    · rw [if_pos hc] at h
      exact ih a t h
    · rw [if_neg hc] at h
      have h1 : c = a := (List.cons.inj h).1
      rw [← h1]
      cases hb : isPySpace c with
      | false => rfl
      | true => exact absurd hb hc

theorem dropWhile_cons_of_not (a : Char) (t : List Char) (h : isPySpace a = false) :
    (a :: t).dropWhile isPySpace = a :: t := by
  rw [List.dropWhile_cons, if_neg (by rw [h]; exact Bool.false_ne_true)]

theorem dropWhile_idem (l : List Char) :
    (l.dropWhile isPySpace).dropWhile isPySpace = l.dropWhile isPySpace := by
  cases hw : l.dropWhile isPySpace with
  | nil => rfl
  | cons a t => exact dropWhile_cons_of_not a t (dropWhile_head_not l a t hw)

theorem pyStrip_drop_eq (s : Str) :
    (pyStrip s).dropWhile isPySpace = pyStrip s := by
  cases hps : pyStrip s with
  | nil => rfl
  | cons a t =>
    have hpre : pyStrip s <+: s.dropWhile isPySpace := pyStrip_prefix_dropWhile s
    rw [hps] at hpre
    obtain ⟨u, hu⟩ := hpre
    have hdec : s.dropWhile isPySpace = a :: (t ++ u) := by
      rw [← hu, List.cons_append]
    exact dropWhile_cons_of_not a t (dropWhile_head_not s a (t ++ u) hdec)

theorem pyStrip_idem (s : Str) : pyStrip (pyStrip s) = pyStrip s := by
  show (((pyStrip s).dropWhile isPySpace).reverse.dropWhile isPySpace).reverse = pyStrip s
  have hrev : (pyStrip s).reverse = (s.dropWhile isPySpace).reverse.dropWhile isPySpace :=
    List.reverse_reverse ((s.dropWhile isPySpace).reverse.dropWhile isPySpace)
  rw [pyStrip_drop_eq s, hrev, dropWhile_idem ((s.dropWhile isPySpace).reverse)]
  rfl

theorem clean_llm_output_idem (s : Str) :
    clean_llm_output (clean_llm_output s) = clean_llm_output s := by
  have hid : remove_tags (clean_llm_output s) = clean_llm_output s :=
    go_id_of_tagFree (clean_llm_output s).length (clean_llm_output s) (tagFree_clean s)
  show pyStrip (remove_tags (clean_llm_output s)) = clean_llm_output s
  rw [hid]
  exact pyStrip_idem (remove_tags s)

theorem cacheLookup_mem {st : CacheSt} {key : CacheKey} {e : CacheEntry}
    (h : cacheLookup st key = some e) : e ∈ st.entries := by
  unfold cacheLookup at h
  exact List.mem_of_find?_eq_some h

theorem cache_get_some {enabled : Bool} {ttl now : Nat} {st : CacheSt} {key : CacheKey}
    {v : Str} (h : (cache_get enabled ttl now st key).1 = some v) :
    ∃ e ∈ st.entries, e.value = v := by
  unfold cache_get at h
  by_cases hen : (!enabled) = true
  · rw [if_pos hen] at h
    exact Option.noConfusion h
  · rw [if_neg hen] at h
    cases hl : cacheLookup st key with
    | none =>
      rw [hl] at h
      exact Option.noConfusion h
    | some e =>
      rw [hl] at h
      have h' : (if ttl < now - e.timestamp then
          ((none : Option Str), (⟨st.entries.filter fun e2 => e2.key ≠ key⟩ : CacheSt))
        else (some e.value, st)).1 = some v := h
      by_cases hexp : ttl < now - e.timestamp
      · rw [if_pos hexp] at h'
        exact Option.noConfusion h'
      · rw [if_neg hexp] at h'
        exact ⟨e, cacheLookup_mem hl, Option.some.inj h'⟩

theorem cache_get_entries_sub (enabled : Bool) (ttl now : Nat) (st : CacheSt)
    (key : CacheKey) :
    ∀ e ∈ (cache_get enabled ttl now st key).2.entries, e ∈ st.entries := by
  intro e he
  unfold cache_get at he
  by_cases hen : (!enabled) = true
  · rw [if_pos hen] at he
    exact he
  · rw [if_neg hen] at he
    cases hl : cacheLookup st key with
    | none =>
      rw [hl] at he
      exact he
    | some e0 =>
      rw [hl] at he
      have he' : e ∈ (if ttl < now - e0.timestamp then
          ((none : Option Str), (⟨st.entries.filter fun e2 => e2.key ≠ key⟩ : CacheSt))
        else (some e0.value, st)).2.entries := he
      by_cases hexp : ttl < now - e0.timestamp
      · rw [if_pos hexp] at he'
        exact List.mem_of_mem_filter he'
      · rw [if_neg hexp] at he'
        exact he'

theorem cache_set_entries_sub (enabled : Bool) (now : Nat) (st : CacheSt) (key : CacheKey)
    (v : Str) :
    ∀ e ∈ (cache_set enabled now st key v).entries,
      e = ⟨key, now, v⟩ ∨ e ∈ st.entries := by
  intro e he
  unfold cache_set at he
  by_cases hen : (!enabled) = true
  · rw [if_pos hen] at he
    exact Or.inr he
  · rw [if_neg hen] at he
    exact List.mem_cons.mp he

theorem generate_commit_message_cases (enabled : Bool) (ttl now : Nat) (st : CacheSt)
    (chunks : List RawChunk) (rawOut : Str) :
    (generate_commit_message enabled ttl now st chunks rawOut).1 = [] ∨
    (generate_commit_message enabled ttl now st chunks rawOut).1 = clean_llm_output rawOut ∨
    ∃ e ∈ st.entries, (generate_commit_message enabled ttl now st chunks rawOut).1 = e.value := by
  unfold generate_commit_message
  by_cases hch : chunks = []
  · rw [if_pos hch]
    exact Or.inl rfl
  · rw [if_neg hch]
    cases hget : (cache_get enabled ttl now st ("commit".data, chunks)).1 with
    | none => exact Or.inr (Or.inl rfl)
    | some v =>
      cases v with
      | nil => exact Or.inr (Or.inl rfl)
      | cons a t =>
        obtain ⟨e, he, hev⟩ := cache_get_some hget
        exact Or.inr (Or.inr ⟨e, he, hev.symm⟩)

theorem review_step_review (enabled : Bool) (ttl now : Nat) (backend : RawChunk → Str)
    (c : RawChunk) (st : CacheSt) :
    (review_step enabled ttl now backend c st).1.review = review_value backend c ∨
    ∃ e ∈ st.entries, (review_step enabled ttl now backend c st).1.review = e.value := by
  unfold review_step
  cases hget : (cache_get enabled ttl now st ("review".data, [c])).1 with
  | none => exact Or.inl rfl
  | some v =>
    cases v with
    | nil => exact Or.inl rfl
    | cons a t =>
      obtain ⟨e, he, hev⟩ := cache_get_some hget
      exact Or.inr ⟨e, he, hev.symm⟩

theorem review_step_entries (enabled : Bool) (ttl now : Nat) (backend : RawChunk → Str)
    (c : RawChunk) (st : CacheSt) :
    ∀ e ∈ (review_step enabled ttl now backend c st).2.entries,
      e.value = review_value backend c ∨ e ∈ st.entries := by
  intro e he
  unfold review_step at he
  cases hget : (cache_get enabled ttl now st ("review".data, [c])).1 with
  | none =>
    rw [hget] at he
    rcases cache_set_entries_sub enabled now
        (cache_get enabled ttl now st ("review".data, [c])).2 ("review".data, [c])
        (review_value backend c) e he with rfl | he2
    · exact Or.inl rfl
    · exact Or.inr (cache_get_entries_sub enabled ttl now st ("review".data, [c]) e he2)
  | some v =>
    rw [hget] at he
    cases v with
    | nil =>
      rcases cache_set_entries_sub enabled now
          (cache_get enabled ttl now st ("review".data, [c])).2 ("review".data, [c])
          (review_value backend c) e he with rfl | he2
      · exact Or.inl rfl
      · exact Or.inr (cache_get_entries_sub enabled ttl now st ("review".data, [c]) e he2)
    | cons a t =>
      exact Or.inr (cache_get_entries_sub enabled ttl now st ("review".data, [c]) e he)

theorem review_cons_pos (enabled : Bool) (ttl now : Nat) (backend : RawChunk → Str)
    (c : RawChunk) (rest : List RawChunk) (st : CacheSt)
    (h : should_review_chunk c = true) :
    review_code_changes enabled ttl now backend (c :: rest) st =
      ((review_step enabled ttl now backend c st).1 ::
        (review_code_changes enabled ttl now backend rest
          (review_step enabled ttl now backend c st).2).1,
       (review_code_changes enabled ttl now backend rest
         (review_step enabled ttl now backend c st).2).2) := by
  conv_lhs => unfold review_code_changes
  rw [if_pos h]

theorem review_cons_neg (enabled : Bool) (ttl now : Nat) (backend : RawChunk → Str)
    (c : RawChunk) (rest : List RawChunk) (st : CacheSt)
    (h : should_review_chunk c = false) :
    review_code_changes enabled ttl now backend (c :: rest) st =
      review_code_changes enabled ttl now backend rest st := by
  conv_lhs => unfold review_code_changes
  rw [if_neg (by rw [h]; exact Bool.false_ne_true)]

theorem review_code_changes_spec (enabled : Bool) (ttl now : Nat)
    (backend : RawChunk → Str) :
    ∀ (chunks : List RawChunk) (st : CacheSt),
      ∀ r ∈ (review_code_changes enabled ttl now backend chunks st).1,
        (∃ c ∈ chunks, r.review = clean_llm_output (backend c)) ∨
        (∃ e ∈ st.entries, r.review = e.value) := by
  intro chunks
  induction chunks with
  | nil =>
    intro st r hr
    exact absurd hr (List.not_mem_nil r)
  | cons c rest ih =>
    intro st r hr
    by_cases hrev : should_review_chunk c = true
    · rw [review_cons_pos enabled ttl now backend c rest st hrev] at hr
      rcases List.mem_cons.mp hr with heq | hr'
      · rcases review_step_review enabled ttl now backend c st with h1 | ⟨e, he, h1⟩
        · refine Or.inl ⟨c, List.mem_cons_self c rest, ?_⟩
          rw [heq, h1]
          exact clean_llm_output_idem (backend c)
        · refine Or.inr ⟨e, he, ?_⟩
          rw [heq]
          exact h1
      · rcases ih _ r hr' with ⟨c2, hc2, hrv⟩ | ⟨e, he, hrv⟩
        · exact Or.inl ⟨c2, List.mem_cons_of_mem c hc2, hrv⟩
        · rcases review_step_entries enabled ttl now backend c st e he with hv | he'
          · refine Or.inl ⟨c, List.mem_cons_self c rest, ?_⟩
            rw [hrv, hv]
            exact clean_llm_output_idem (backend c)
          · exact Or.inr ⟨e, he', hrv⟩
    · have hrev2 : should_review_chunk c = false := by
        cases hb : should_review_chunk c with
        | false => rfl
        | true => exact absurd hb hrev
      rw [review_cons_neg enabled ttl now backend c rest st hrev2] at hr
      rcases ih st r hr with ⟨c2, hc2, hrv⟩ | h2
      · exact Or.inl ⟨c2, List.mem_cons_of_mem c hc2, hrv⟩
      · exact Or.inr h2

/-- C10: every string the pipeline returns as a commit message or review
body is the backend's raw output cleaned by `_clean_llm_output`, or a
previously cached value (itself stored only after cleaning): the cleaned
text contains no `<...>` tag (no infix of the form `'<' :: m ++ ['>']` with
`m` nonempty and `'>'`-free — the matches of the regex `<[^>]+>`), and it
equals the raw output verbatim exactly when that output has no such tag and
no surrounding whitespace; for every cache configuration, cache state and
chunk list, `generate_commit_message` returns the empty string (empty chunk
list), `clean_llm_output` of the backend output, or a cached entry's value,
and every review body `review_code_changes` returns is `clean_llm_output`
of the backend's output for one of the chunks (cleaning is idempotent, so
the source's double cleaning of reviews yields exactly this) or a cached
entry's value; consequently, whenever every cached value is tag-free, every
returned commit message and review body is tag-free. -/
theorem c10_clean_output :
    ∀ raw : Str,
      (∀ m : Str, m ≠ [] → '>' ∉ m → ¬ ('<' :: m ++ ['>']) <:+: clean_llm_output raw) ∧
      (clean_llm_output raw = raw ↔
        ((∀ m : Str, m ≠ [] → '>' ∉ m → ¬ ('<' :: m ++ ['>']) <:+: raw) ∧
          pyStrip raw = raw)) ∧
      (∀ (enabled : Bool) (ttl now : Nat) (st : CacheSt) (chunks : List RawChunk),
        (generate_commit_message enabled ttl now st chunks raw).1 = [] ∨
        (generate_commit_message enabled ttl now st chunks raw).1 = clean_llm_output raw ∨
        ∃ e ∈ st.entries, (generate_commit_message enabled ttl now st chunks raw).1 = e.value) ∧
      (∀ (enabled : Bool) (ttl now : Nat) (st : CacheSt) (chunks : List RawChunk)
          (backend : RawChunk → Str),
        ∀ r ∈ (review_code_changes enabled ttl now backend chunks st).1,
          (∃ c ∈ chunks, r.review = clean_llm_output (backend c)) ∨
          (∃ e ∈ st.entries, r.review = e.value)) ∧
      (∀ (enabled : Bool) (ttl now : Nat) (st : CacheSt) (chunks : List RawChunk)
          (backend : RawChunk → Str),
        (∀ e ∈ st.entries, TagFree e.value) →
        TagFree (generate_commit_message enabled ttl now st chunks raw).1 ∧
        ∀ r ∈ (review_code_changes enabled ttl now backend chunks st).1,
          TagFree r.review) := by
  intro raw
  refine ⟨tagFree_clean raw, ⟨?_, ?_⟩, ?_, ?_, ?_⟩
  · intro h
    have htfr : TagFree raw := by
      by_contra hn
      have hlt : (remove_tags raw).length < raw.length :=
        go_length_lt raw.length raw (Nat.le_refl _) hn
      have h1 : (clean_llm_output raw).length ≤ (remove_tags raw).length :=
        pyStrip_length_le (remove_tags raw)
      rw [h] at h1
      omega
    have hid : remove_tags raw = raw := go_id_of_tagFree raw.length raw htfr
    refine ⟨htfr, ?_⟩
    calc pyStrip raw = pyStrip (remove_tags raw) := by rw [hid]
      _ = clean_llm_output raw := rfl
      _ = raw := h
  · rintro ⟨htfr, hstrip⟩
    have hid : remove_tags raw = raw := go_id_of_tagFree raw.length raw htfr
    unfold clean_llm_output
    rw [hid]
    exact hstrip
  · intro enabled ttl now st chunks
    exact generate_commit_message_cases enabled ttl now st chunks raw
  · intro enabled ttl now st chunks backend
    exact review_code_changes_spec enabled ttl now backend chunks st
  · intro enabled ttl now st chunks backend hst
    constructor
    · rcases generate_commit_message_cases enabled ttl now st chunks raw with h | h | ⟨e, he, h⟩
      · rw [h]
        exact tagFree_nil
      · rw [h]
        exact tagFree_clean raw
      · rw [h]
        exact hst e he
    · intro r hr
      rcases review_code_changes_spec enabled ttl now backend chunks st r hr with
        ⟨c, _, hrv⟩ | ⟨e, he, hrv⟩
      · rw [hrv]
        exact tagFree_clean (backend c)
      · rw [hrv]
        exact hst e he

/-- C10 witness: the cleaned output of `"<think>x</think> ok"` contains no
tag with body `"t"`; reviewing one modified `.py` chunk against an empty
cache with backend output `"<think></think> fix: y"` returns exactly the
cleaned review `"fix: y"`, and by the theorem every review body returned
from the empty cache is tag-free. -/
theorem c10_clean_output_witness :
    ((['t'] : Str) ≠ []) ∧ ('>' ∉ (['t'] : Str)) ∧
    ¬ ('<' :: ['t'] ++ ['>'] <:+: clean_llm_output ("<think>x</think> ok".data)) ∧
    ((review_code_changes true 10 0 (fun _ => "<think></think> fix: y".data)
        [⟨"modified".data, "a.py".data, "+x = 1".data⟩] ⟨[]⟩).1 =
      [⟨"a.py".data, "modified".data, "fix: y".data⟩]) ∧
    (∀ e ∈ (⟨[]⟩ : CacheSt).entries, TagFree e.value) ∧
    (∀ r ∈ (review_code_changes true 10 0 (fun _ => "<think></think> fix: y".data)
        [⟨"modified".data, "a.py".data, "+x = 1".data⟩] ⟨[]⟩).1, TagFree r.review) :=
  ⟨by decide, by decide,
   (c10_clean_output ("<think>x</think> ok".data)).1 ['t'] (by decide) (by decide),
   by decide,
   fun e he => absurd he (List.not_mem_nil e),
   ((c10_clean_output ("<think>x</think> ok".data)).2.2.2.2 true 10 0 ⟨[]⟩
      [⟨"modified".data, "a.py".data, "+x = 1".data⟩]
      (fun _ => "<think></think> fix: y".data)
      (fun e he => absurd he (List.not_mem_nil e))).2⟩

end GCM
